import Mathlib

/-!
Shallow embedding of the Extractify field-extraction heuristics.

The repository contains three versions of the regex extraction rules:

* the basic extractor, `src/lib/fieldExtractor.ts` — namespace `fieldExtractor`;
* the enhanced extractor, `src/lib/enhancedFieldExtractor.ts` — namespace
  `enhancedFieldExtractor` (the one the Next.js `/api/extract` route calls);
* the FastAPI backend extractor (`backend/main.py`), which is not part of the
  checked-in frontend sources; only its callers and the design documents
  `EXTRACTION_FIX_SUMMARY.md` / `EXTRACTION_BEFORE_AFTER.md` are.  It is
  modelled from the specification in namespace `backendMain`.

Texts are embedded as `List Char` (JavaScript strings are sequences of code
units; the conversation data is ASCII).  A JS `text.match(re)` is embedded as
a left-to-right scan (`scanFirst`) that tries a deterministic matcher at every
position, mirroring the leftmost-match rule of the regex engine; `re` with the
`g` flag is `scanAll`, which resumes after the end of each match.  Each regex
pattern becomes an explicit matcher function; greedy repetition over a
character class followed by a character outside the class is deterministic, so
the matchers take maximal runs (`splitRun`) without backtracking, and the two
places where the JS engine genuinely backtracks (the dot before the top-level
domain in the enhanced email pattern, and the trailing digit of the lenient
phone pattern) are modelled by explicit rightmost-split searches.
-/

/-! ## Character classes (ASCII reading of the JS regex classes) -/

/-- Whitespace class of JS regex (ASCII part). -/
def isWsC (c : Char) : Bool :=
  c == ' ' || c == '\t' || c == '\n' || c == '\r' || c == '\x0b' || c == '\x0c'

/-- Word character class of JS regex (alphanumeric or underscore). -/
def isWordC (c : Char) : Bool :=
  c.isAlphanum || c == '_'

/-- Character class of the basic email pattern, both sides of the at sign. -/
def isEmailB (c : Char) : Bool :=
  isWordC c || c == '.' || c == '-'

/-- Separator class of the basic/enhanced order-id patterns 1 and 2. -/
def isSepB (c : Char) : Bool :=
  c == ':' || c == '#' || isWsC c

/-- Separator class of the enhanced order-id patterns 5 and 6 (adds a dash). -/
def isSepE (c : Char) : Bool :=
  isSepB c || c == '-'

/-- Local-part class of the enhanced email pattern. -/
def isLocalE (c : Char) : Bool :=
  c.isAlphanum || c == '.' || c == '_' || c == '%' || c == '+' || c == '-'

/-- Domain class of the enhanced email pattern. -/
def isDomainE (c : Char) : Bool :=
  c.isAlphanum || c == '.' || c == '-'

/-- Body class of the lenient enhanced phone pattern. -/
def isPhoneRunE (c : Char) : Bool :=
  c.isDigit || isWsC c || c == '-'

/-- Word-boundary test on the adjacent side: the list is the characters next
to the match (for the left side, the reversed prefix); the boundary holds at
the end of the text or next to a non-word character. -/
def bdry : List Char → Bool
  | [] => true
  | c :: _ => !(isWordC c)

/-- NA sentinel as a character list. -/
def NAl : List Char := ['N', 'A']

/-! ## Scanning combinators -/

/-- Split a list into its maximal leading run satisfying `p` and the rest. -/
def splitRun (p : Char → Bool) (l : List Char) : List Char × List Char :=
  (l.takeWhile p, l.dropWhile p)

/-- Consume an exact literal from the front of a list. -/
def expectPfx : List Char → List Char → Option (List Char)
  | [], l => some l
  | _ :: _, [] => none
  | c :: s, d :: l => if d == c then expectPfx s l else none

/-- Consume a (lowercase) literal case-insensitively; returns the consumed
original characters and the rest. -/
def expectPfxCI : List Char → List Char → Option (List Char × List Char)
  | [], l => some ([], l)
  | _ :: _, [] => none
  | c :: s, d :: l =>
    if d.toLower == c then (expectPfxCI s l).map (fun ar => (d :: ar.1, ar.2)) else none

/-- Consume exactly `n` characters satisfying `p`. -/
def takeN (p : Char → Bool) : Nat → List Char → Option (List Char × List Char)
  | 0, l => some ([], l)
  | _ + 1, [] => none
  | n + 1, c :: l =>
    if p c then (takeN p n l).map (fun ar => (c :: ar.1, ar.2)) else none

/-- Type of a positional matcher: reversed prefix and remaining suffix in,
`(value, matched, rest)` out, where `matched` is the span consumed at this
position and `value` is what the extractor would return for it. -/
abbrev Mch := List Char → List Char → Option (List Char × List Char × List Char)

/-- Leftmost match: try the matcher at each position from left to right,
carrying the reversed prefix (for boundary and context-window tests). -/
def scanFirst (m : Mch) : List Char → List Char → Option (List Char × List Char × List Char)
  | pre, [] => m pre []
  | pre, c :: l =>
    match m pre (c :: l) with
    | some r => some r
    | none => scanFirst m (c :: pre) l

/-- All matches of a global regex: like `scanFirst` but resuming after the
end of each match; `f` is fuel (one unit per character suffices). -/
def scanAll (m : Mch) : Nat → List Char → List Char → List (List Char)
  | 0, _, _ => []
  | _ + 1, _, [] => []
  | f + 1, pre, c :: l =>
    match m pre (c :: l) with
    | some (v, md, rest) => v :: scanAll m f (md.reverse ++ pre) rest
    | none => scanAll m f (c :: pre) l

/-- Case-insensitive substring test: does the lowercase pattern occur in `l`
(compared after lowercasing)? -/
def hasPfxCI : List Char → List Char → Bool
  | [], _ => true
  | _ :: _, [] => false
  | c :: s, d :: l => d.toLower == c && hasPfxCI s l

/-- Case-insensitive occurrence of `pat` anywhere in `l`. -/
def containsTok (pat : List Char) : List Char → Bool
  | [] => hasPfxCI pat []
  | c :: t => hasPfxCI pat (c :: t) || containsTok pat (c :: t).tail

/-! ## Soundness of the combinators -/

theorem splitRun_append (p : Char → Bool) (l : List Char) :
    (splitRun p l).1 ++ (splitRun p l).2 = l := by
  simp [splitRun, List.takeWhile_append_dropWhile]

theorem splitRun_all (p : Char → Bool) (l : List Char) :
    (splitRun p l).1.all p = true := by
  simp only [splitRun, List.all_eq_true]
  exact fun c hc => List.mem_takeWhile_imp hc

theorem expectPfx_sound {s l r : List Char} (h : expectPfx s l = some r) :
    l = s ++ r := by
  induction s generalizing l with
  | nil => simpa [expectPfx] using h
  | cons c s ih =>
    cases l with
    | nil => simp [expectPfx] at h
    | cons d l =>
      simp only [expectPfx] at h
      split at h
      · next hd => simpa [eq_of_beq hd] using congrArg (d :: ·) (ih h)
      · exact absurd h (by simp)

theorem expectPfxCI_sound {s l : List Char} {o r : List Char}
    (h : expectPfxCI s l = some (o, r)) :
    l = o ++ r ∧ o.map Char.toLower = s := by
  induction s generalizing l o r with
  | nil =>
    simp only [expectPfxCI, Option.some.injEq, Prod.mk.injEq] at h
    simp [← h.1, ← h.2]
  | cons c s ih =>
    cases l with
    | nil => simp [expectPfxCI] at h
    | cons d l =>
      simp only [expectPfxCI] at h
      split at h
      · next hd =>
        cases ho : expectPfxCI s l with
        | none => simp [ho] at h
        | some ar =>
          obtain ⟨a1, r1⟩ := ar
          simp only [ho, Option.map] at h
          injection h with h
          obtain ⟨ih1, ih2⟩ := ih ho
          cases h
          exact ⟨by simp [ih1], by simp [ih2, eq_of_beq hd]⟩
      · exact absurd h (by simp)

theorem takeN_sound {p : Char → Bool} {n : Nat} {l a r : List Char}
    (h : takeN p n l = some (a, r)) :
    l = a ++ r ∧ a.length = n ∧ a.all p = true := by
  induction n generalizing l a r with
  | zero =>
    simp only [takeN, Option.some.injEq, Prod.mk.injEq] at h
    simp [← h.1, ← h.2]
  | succ n ih =>
    cases l with
    | nil => simp [takeN] at h
    | cons c l =>
      simp only [takeN] at h
      split at h
      · next hc =>
        cases ht : takeN p n l with
        | none => simp [ht] at h
        | some ar =>
          obtain ⟨a1, r1⟩ := ar
          simp only [ht, Option.map] at h
          injection h with h
          obtain ⟨ih1, ih2, ih3⟩ := ih ht
          cases h
          exact ⟨by simp [ih1], by simp [ih2], by simp [List.all_cons, hc, ih3]⟩
      · exact absurd h (by simp)

theorem scanFirst_some {m : Mch} {pre l : List Char} {r : List Char × List Char × List Char}
    (h : scanFirst m pre l = some r) :
    ∃ a b, l = a.reverse ++ b ∧ m (a ++ pre) b = some r := by
  induction l generalizing pre with
  | nil => exact ⟨[], [], by simpa [scanFirst] using h⟩
  | cons c l ih =>
    simp only [scanFirst] at h
    split at h
    · next v hm => exact ⟨[], c :: l, by simpa [hm] using h⟩
    · obtain ⟨a, b, hab, hm⟩ := ih h
      exact ⟨a ++ [c], b, by simp [hab], by simpa using hm⟩

/-- Membership in `scanAll` reduces to a positional match, given that the
matcher only reports spans that decompose its input. -/
theorem scanAll_mem {m : Mch}
    (hm : ∀ pre i v md rest, m pre i = some (v, md, rest) → i = md ++ rest)
    {f : Nat} {pre l : List Char} {v : List Char}
    (h : v ∈ scanAll m f pre l) :
    ∃ a b md rest, l = a.reverse ++ b ∧ m (a ++ pre) b = some (v, md, rest) := by
  induction f generalizing pre l with
  | zero => simp [scanAll] at h
  | succ f ih =>
    cases l with
    | nil => simp [scanAll] at h
    | cons c l =>
      simp only [scanAll] at h
      split at h
      · next v' md rest hmm =>
        rcases List.mem_cons.mp h with hv | hv
        · exact ⟨[], c :: l, md, rest, by simp, by simpa [hv] using hmm⟩
        · obtain ⟨a, b, md', rest', hab, hm'⟩ := ih hv
          refine ⟨a ++ md.reverse, b, md', rest', ?_, by simpa using hm'⟩
          have hcl : c :: l = md ++ rest := hm _ _ _ _ _ hmm
          simp [hcl, hab]
      · obtain ⟨a, b, md', rest', hab, hm'⟩ := ih h
        exact ⟨a ++ [c], b, md', rest', by simp [hab], by simpa using hm'⟩

theorem hasPfxCI_self (s l : List Char) :
    hasPfxCI (s.map Char.toLower) (s ++ l) = true := by
  induction s with
  | nil => simp [hasPfxCI]
  | cons c s ih => simp [hasPfxCI, ih]

/-- A case-insensitive occurrence of `pat` makes `containsTok` true. -/
theorem containsTok_of_decomp {t u o v pat : List Char}
    (ht : t = u ++ o ++ v) (ho : o.map Char.toLower = pat) :
    containsTok pat t = true := by
  subst ht; subst ho
  induction u with
  | nil =>
    cases o with
    | nil =>
      cases v with
      | nil => simp [containsTok, hasPfxCI]
      | cons c v => simp [containsTok, hasPfxCI]
    | cons c o =>
      have := hasPfxCI_self (c :: o) v
      simp only [containsTok]
      simp_all
  | cons c u ih =>
    simp only [containsTok, List.cons_append, List.tail_cons, Bool.or_eq_true]
    exact Or.inr (by simpa using ih)

/-! ## Shared record type

Both TypeScript modules declare the identical `ExtractedFields` interface. -/

structure ExtractedFields where
  email : String
  phone : String
  zipCode : String
  orderId : String
deriving DecidableEq, Repr

/-! ## Shared matchers

Patterns that occur verbatim in more than one version of the extractor. -/

/-- Matcher of the strict bracketed phone pattern (one backslash-escaped
group): open paren, three digits, close paren, optional whitespace, three
digits, dash, four digits. -/
def mBracketPhone : Mch := fun _pre rest =>
  match rest with
  | '(' :: r1 =>
    match takeN Char.isDigit 3 r1 with
    | some (a, r2) =>
      match r2 with
      | ')' :: r3 =>
        let w := (splitRun isWsC r3).1
        let r4 := (splitRun isWsC r3).2
        match takeN Char.isDigit 3 r4 with
        | some (b, r5) =>
          match r5 with
          | '-' :: r6 =>
            match takeN Char.isDigit 4 r6 with
            | some (c, r7) =>
              some ('(' :: a ++ ')' :: (w ++ b ++ '-' :: c),
                    '(' :: a ++ ')' :: (w ++ b ++ '-' :: c), r7)
            | none => none
          | _ => none
        | none => none
      | _ => none
    | none => none
  | _ => none

/-- Matcher of order pattern 1, case-insensitive: the literal "order", a run
of separators, a nonempty alphanumeric group (the value). -/
def mOrd1 : Mch := fun _pre rest =>
  match expectPfxCI ['o', 'r', 'd', 'e', 'r'] rest with
  | some (o, r1) =>
    let s := (splitRun isSepB r1).1
    let r2 := (splitRun isSepB r1).2
    let g := (splitRun Char.isAlphanum r2).1
    let r3 := (splitRun Char.isAlphanum r2).2
    if g.isEmpty then none else some (g, o ++ s ++ g, r3)
  | none => none

/-- Matcher of order pattern 2, case-insensitive: "order", mandatory
whitespace, "id" or "number", separators, a nonempty alphanumeric group. -/
def mOrd2 : Mch := fun _pre rest =>
  match expectPfxCI ['o', 'r', 'd', 'e', 'r'] rest with
  | some (o, r1) =>
    let w := (splitRun isWsC r1).1
    let r2 := (splitRun isWsC r1).2
    if w.isEmpty then none else
    match (expectPfxCI ['i', 'd'] r2).orElse (fun _ => expectPfxCI ['n', 'u', 'm', 'b', 'e', 'r'] r2) with
    | some (k, r3) =>
      let s := (splitRun isSepB r3).1
      let r4 := (splitRun isSepB r3).2
      let g := (splitRun Char.isAlphanum r4).1
      let r5 := (splitRun Char.isAlphanum r4).2
      if g.isEmpty then none else some (g, o ++ w ++ k ++ s ++ g, r5)
    | none => none
  | none => none

/-- Matcher of order pattern 3: a hash sign followed by a nonempty
alphanumeric group. -/
def mOrd3 : Mch := fun _pre rest =>
  match rest with
  | '#' :: r1 =>
    let g := (splitRun Char.isAlphanum r1).1
    let r2 := (splitRun Char.isAlphanum r1).2
    if g.isEmpty then none else some (g, '#' :: g, r2)
  | _ => none

/-! ## The basic extractor, `src/lib/fieldExtractor.ts` -/

namespace fieldExtractor

/-- Matcher of the basic email pattern: a nonempty run of word/dot/dash
characters, an at sign, another nonempty run. -/
def mEmail : Mch := fun _pre rest =>
  let a := (splitRun isEmailB rest).1
  let r1 := (splitRun isEmailB rest).2
  if a.isEmpty then none else
  match r1 with
  | '@' :: r2 =>
    let b := (splitRun isEmailB r2).1
    let r3 := (splitRun isEmailB r2).2
    if b.isEmpty then none else some (a ++ '@' :: b, a ++ '@' :: b, r3)
  | _ => none

/-- Matcher of the basic zip pattern: five digits with word boundaries on
both sides. -/
def mZip : Mch := fun pre rest =>
  if bdry pre then
    match takeN Char.isDigit 5 rest with
    | some (d, r) => if bdry r then some (d, d, r) else none
    | none => none
  else none

/-- Matcher of basic order pattern 4, first alternative: word boundary,
exactly two uppercase letters, six or more digits, word boundary. -/
def mOrd4a : Mch := fun pre rest =>
  if bdry pre then
    match takeN Char.isUpper 2 rest with
    | some (u, r1) =>
      let d := (splitRun Char.isDigit r1).1
      let r2 := (splitRun Char.isDigit r1).2
      if 6 ≤ d.length && bdry r2 then some (u ++ d, u ++ d, r2) else none
    | none => none
  else none

/-- Matcher of basic order pattern 4, second alternative: eight or more
digits between word boundaries. -/
def mOrd4b : Mch := fun pre rest =>
  if bdry pre then
    let d := (splitRun Char.isDigit rest).1
    let r1 := (splitRun Char.isDigit rest).2
    if 8 ≤ d.length && bdry r1 then some (d, d, r1) else none
  else none

/-- Matcher of basic order pattern 4, third alternative: word boundary, one
uppercase letter, seven or more digits, word boundary. -/
def mOrd4c : Mch := fun pre rest =>
  if bdry pre then
    match rest with
    | c :: r1 =>
      if c.isUpper then
        let d := (splitRun Char.isDigit r1).1
        let r2 := (splitRun Char.isDigit r1).2
        if 7 ≤ d.length && bdry r2 then some (c :: d, c :: d, r2) else none
      else none
    | [] => none
  else none

/-- Matcher of basic order pattern 4: the three alternatives in order. -/
def mOrd4 : Mch := fun pre rest =>
  (mOrd4a pre rest).orElse (fun _ => (mOrd4b pre rest).orElse (fun _ => mOrd4c pre rest))

/-- The guard `!text || text.trim() === ""` of every extractor function. -/
def blankGuard (t : List Char) : Bool := t.all isWsC

def extractEmailL (t : List Char) : List Char :=
  if blankGuard t then NAl else
  match scanFirst mEmail [] t with
  | some (v, _, _) => v
  | none => NAl

def extractPhoneL (t : List Char) : List Char :=
  if blankGuard t then NAl else
  match scanFirst mBracketPhone [] t with
  | some (v, _, _) => v
  | none => NAl

def extractZipCodeL (t : List Char) : List Char :=
  if blankGuard t then NAl else
  match scanFirst mZip [] t with
  | some (v, _, _) => v
  | none => NAl

def extractOrderIdL (t : List Char) : List Char :=
  if blankGuard t then NAl else
  match scanFirst mOrd1 [] t with
  | some (v, _, _) => v
  | none =>
  match scanFirst mOrd2 [] t with
  | some (v, _, _) => v
  | none =>
  match scanFirst mOrd3 [] t with
  | some (v, _, _) => v
  | none =>
  match scanFirst mOrd4 [] t with
  | some (v, _, _) => v
  | none => NAl

def extractEmail (text : String) : String := ⟨extractEmailL text.data⟩

def extractPhone (text : String) : String := ⟨extractPhoneL text.data⟩

def extractZipCode (text : String) : String := ⟨extractZipCodeL text.data⟩

def extractOrderId (text : String) : String := ⟨extractOrderIdL text.data⟩

def extractAllFields (text : String) : ExtractedFields :=
  ⟨extractEmail text, extractPhone text, extractZipCode text, extractOrderId text⟩

end fieldExtractor

/-! ## The enhanced extractor, `src/lib/enhancedFieldExtractor.ts` -/

namespace enhancedFieldExtractor

/-- Rightmost dot split of the maximal domain run: the greedy domain part
backtracks to the last dot that is followed by at least two letters.  The
accumulator holds the characters already passed, reversed.  Returns the part
before the dot, the letters after it (the maximal letter run), and the
remainder of the input. -/
def domSplit (accRev : List Char) : List Char → Option (List Char × List Char × List Char)
  | [] => none
  | c :: t =>
    match domSplit (c :: accRev) t with
    | some r => some r
    | none =>
      if c == '.' && !accRev.isEmpty then
        let L := (splitRun Char.isAlpha t).1
        let r := (splitRun Char.isAlpha t).2
        if 2 ≤ L.length then some (accRev.reverse, L, r) else none
      else none

/-- Matcher of the enhanced email pattern: local part, at sign, domain with a
dot and a top-level domain of at least two letters (greedy, so the rightmost
valid dot of the maximal domain run is used). -/
def mEmail : Mch := fun _pre rest =>
  let a := (splitRun isLocalE rest).1
  let r1 := (splitRun isLocalE rest).2
  if a.isEmpty then none else
  match r1 with
  | '@' :: r2 =>
    let D := (splitRun isDomainE r2).1
    let r3 := (splitRun isDomainE r2).2
    match domSplit [] D with
    | some (d1, L, dRest) =>
      some (a ++ '@' :: (d1 ++ '.' :: L), a ++ '@' :: (d1 ++ '.' :: L), dRest ++ r3)
    | none => none
  | _ => none

/-- Validation filter applied to each email match: contains a dot, longer
than five characters, no double dot, exactly one at sign. -/
def validEmail (v : List Char) : Bool :=
  v.contains '.' && decide (5 < v.length) && !hasDD v && (v.countP (· == '@') == 1)
where
  /-- Occurrence of two consecutive dots. -/
  hasDD : List Char → Bool
    | '.' :: '.' :: _ => true
    | _ :: t => hasDD t
    | [] => false

/-- Matcher of enhanced phone pattern 2: three digits, dash, three digits,
dash, four digits, word boundaries on both sides. -/
def mPh2 : Mch := fun pre rest =>
  if bdry pre then
    match takeN Char.isDigit 3 rest with
    | some (a, r1) =>
      match r1 with
      | '-' :: r2 =>
        match takeN Char.isDigit 3 r2 with
        | some (b, r3) =>
          match r3 with
          | '-' :: r4 =>
            match takeN Char.isDigit 4 r4 with
            | some (c, r5) =>
              if bdry r5 then
                some (a ++ '-' :: b ++ '-' :: c, a ++ '-' :: b ++ '-' :: c, r5)
              else none
            | none => none
          | _ => none
        | none => none
      | _ => none
    | none => none
  else none

/-- Matcher of enhanced phone pattern 3: like pattern 2 with dots. -/
def mPh3 : Mch := fun pre rest =>
  if bdry pre then
    match takeN Char.isDigit 3 rest with
    | some (a, r1) =>
      match r1 with
      | '.' :: r2 =>
        match takeN Char.isDigit 3 r2 with
        | some (b, r3) =>
          match r3 with
          | '.' :: r4 =>
            match takeN Char.isDigit 4 r4 with
            | some (c, r5) =>
              if bdry r5 then
                some (a ++ '.' :: b ++ '.' :: c, a ++ '.' :: b ++ '.' :: c, r5)
              else none
            | none => none
          | _ => none
        | none => none
      | _ => none
    | none => none
  else none

/-- Matcher of enhanced phone pattern 4: plus, one, optional whitespace
between three groups of three, three and four digits. -/
def mPh4 : Mch := fun _pre rest =>
  match rest with
  | '+' :: '1' :: r1 =>
    let w1 := (splitRun isWsC r1).1
    let r2 := (splitRun isWsC r1).2
    match takeN Char.isDigit 3 r2 with
    | some (a, r3) =>
      let w2 := (splitRun isWsC r3).1
      let r4 := (splitRun isWsC r3).2
      match takeN Char.isDigit 3 r4 with
      | some (b, r5) =>
        let w3 := (splitRun isWsC r5).1
        let r6 := (splitRun isWsC r5).2
        match takeN Char.isDigit 4 r6 with
        | some (c, r7) =>
          some ('+' :: '1' :: (w1 ++ a ++ w2 ++ b ++ w3 ++ c),
                '+' :: '1' :: (w1 ++ a ++ w2 ++ b ++ w3 ++ c), r7)
        | none => none
      | none => none
    | none => none
  | _ => none

/-- Split the run of phone-body characters before the last digit at index at
least eight: the greedy body backtracks so that the match ends at the last
digit of the maximal run (and fails when that index is below eight).  Returns
the body before the final digit, the final digit, and the leftover tail of
the run. -/
def lastDigitSplit (R : List Char) : Option (List Char × Char × List Char) :=
  let revR := R.reverse
  let tl := (splitRun (fun c => !c.isDigit) revR).1
  match (splitRun (fun c => !c.isDigit) revR).2 with
  | d :: innerRev => some (innerRev.reverse, d, tl.reverse)
  | [] => none

/-- Matcher of enhanced phone pattern 5 (lenient): optional plus, a digit, at
least eight digits/whitespace/dashes, ending with a digit. -/
def mPh5 : Mch := fun _pre rest =>
  match rest with
  | [] => none
  | c :: r =>
    if c == '+' then
      match r with
      | c2 :: r2 => if c2.isDigit then mPh5core ['+', c2] r2 else none
      | [] => none
    else if c.isDigit then mPh5core [c] r else none
where
  mPh5core (lead : List Char) (r : List Char) : Option (List Char × List Char × List Char) :=
    let R := (splitRun isPhoneRunE r).1
    let r2 := (splitRun isPhoneRunE r).2
    match lastDigitSplit R with
    | some (inner, d, after) =>
      if 8 ≤ inner.length then
        some (lead ++ inner ++ [d], lead ++ inner ++ [d], after ++ r2)
      else none
    | none => none

/-- Count of digits in a candidate (the JS `replace` of all non-digits). -/
def digitCount (v : List Char) : Nat := (v.filter Char.isDigit).length

/-- Matcher of the enhanced zip pattern: five digits, an optional dash plus
four digits, word boundaries on both sides (the optional group is greedy and
backtracks when its own boundary fails). -/
def mZip : Mch := fun pre rest =>
  if bdry pre then
    match takeN Char.isDigit 5 rest with
    | some (d, r) =>
      match r with
      | '-' :: r2 =>
        (match takeN Char.isDigit 4 r2 with
         | some (e, r3) =>
           if bdry r3 then some (d ++ '-' :: e, d ++ '-' :: e, r3) else
           if bdry r then some (d, d, r) else none
         | none => if bdry r then some (d, d, r) else none)
      | _ => if bdry r then some (d, d, r) else none
    | none => none
  else none

/-- Validation filter applied to each zip match: the first five digits parse
to a number between 1 and 99999, i.e. they are not all zero. -/
def validZip (v : List Char) : Bool :=
  ((v.filter Char.isDigit).take 5).any (· != '0')

/-- Matcher of enhanced order pattern 4, first alternative: two or more
uppercase letters then four or more digits. -/
def mOrd4a : Mch := fun pre rest =>
  if bdry pre then
    let u := (splitRun Char.isUpper rest).1
    let r1 := (splitRun Char.isUpper rest).2
    if 2 ≤ u.length then
      let d := (splitRun Char.isDigit r1).1
      let r2 := (splitRun Char.isDigit r1).2
      if 4 ≤ d.length && bdry r2 then some (u ++ d, u ++ d, r2) else none
    else none
  else none

/-- Matcher of enhanced order pattern 4, second alternative: six or more
digits then one or more uppercase letters. -/
def mOrd4b : Mch := fun pre rest =>
  if bdry pre then
    let d := (splitRun Char.isDigit rest).1
    let r1 := (splitRun Char.isDigit rest).2
    if 6 ≤ d.length then
      let u := (splitRun Char.isUpper r1).1
      let r2 := (splitRun Char.isUpper r1).2
      if 1 ≤ u.length && bdry r2 then some (d ++ u, d ++ u, r2) else none
    else none
  else none

/-- Matcher of enhanced order pattern 4, third alternative: one uppercase
letter then five or more digits. -/
def mOrd4c : Mch := fun pre rest =>
  if bdry pre then
    match rest with
    | c :: r1 =>
      if c.isUpper then
        let d := (splitRun Char.isDigit r1).1
        let r2 := (splitRun Char.isDigit r1).2
        if 5 ≤ d.length && bdry r2 then some (c :: d, c :: d, r2) else none
      else none
    | [] => none
  else none

/-- Matcher of enhanced order pattern 4: the three alternatives in order. -/
def mOrd4 : Mch := fun pre rest =>
  (mOrd4a pre rest).orElse (fun _ => (mOrd4b pre rest).orElse (fun _ => mOrd4c pre rest))

/-- One keyword branch of enhanced order patterns 5 and 6: the
case-insensitive literal, a run of separators (with dash), a nonempty
alphanumeric group. -/
def mOrdKw (kw : List Char) : Mch := fun _pre rest =>
  match expectPfxCI kw rest with
  | some (o, r1) =>
    let s := (splitRun isSepE r1).1
    let r2 := (splitRun isSepE r1).2
    let g := (splitRun Char.isAlphanum r2).1
    let r3 := (splitRun Char.isAlphanum r2).2
    if g.isEmpty then none else some (g, o ++ s ++ g, r3)
  | none => none

/-- Matcher of enhanced order pattern 5: word boundary, then "order", "ord"
or "ref" (case-insensitive, in that order), separators, group. -/
def mOrd5 : Mch := fun pre rest =>
  if bdry pre then
    (mOrdKw ['o', 'r', 'd', 'e', 'r'] pre rest).orElse (fun _ =>
    (mOrdKw ['o', 'r', 'd'] pre rest).orElse (fun _ =>
      mOrdKw ['r', 'e', 'f'] pre rest))
  else none

/-- Matcher of enhanced order pattern 6: word boundary, then "inv", "txn" or
"ref" (case-insensitive), separators, group. -/
def mOrd6 : Mch := fun pre rest =>
  if bdry pre then
    (mOrdKw ['i', 'n', 'v'] pre rest).orElse (fun _ =>
    (mOrdKw ['t', 'x', 'n'] pre rest).orElse (fun _ =>
      mOrdKw ['r', 'e', 'f'] pre rest))
  else none

/-- Validation applied to each order-id candidate: at least three characters
and not exactly five or exactly ten digits. -/
def validOrd (g : List Char) : Bool :=
  decide (3 ≤ g.length) &&
    !(g.all Char.isDigit && g.length == 5) && !(g.all Char.isDigit && g.length == 10)

def blankGuard (t : List Char) : Bool := t.all isWsC

def extractEmailL (t : List Char) : List Char :=
  if blankGuard t then NAl else
  match (scanAll mEmail (t.length + 1) [] t).filter validEmail with
  | v :: _ => v
  | [] => NAl

def extractPhoneL (t : List Char) : List Char :=
  if blankGuard t then NAl else
  tryPat mBracketPhone t <|> tryPat mPh2 t <|> tryPat mPh3 t <|> tryPat mPh4 t <|>
      tryPat mPh5 t |>.getD NAl
where
  /-- First match of one pattern, kept only when its digit count is ten or
  eleven; otherwise the next pattern is tried. -/
  tryPat (m : Mch) (t : List Char) : Option (List Char) :=
    match scanFirst m [] t with
    | some (v, _, _) => if 10 ≤ digitCount v && digitCount v ≤ 11 then some v else none
    | none => none

def extractZipCodeL (t : List Char) : List Char :=
  if blankGuard t then NAl else
  match (scanAll mZip (t.length + 1) [] t).filter validZip with
  | v :: _ => v
  | [] => NAl

def extractOrderIdL (t : List Char) : List Char :=
  if blankGuard t then NAl else
  tryOrd mOrd1 t <|> tryOrd mOrd2 t <|> tryOrd mOrd3 t <|> tryOrd mOrd4 t <|>
      tryOrd mOrd5 t <|> tryOrd mOrd6 t |>.getD NAl
where
  /-- First match of one pattern, kept only when the validation passes;
  otherwise the next pattern is tried. -/
  tryOrd (m : Mch) (t : List Char) : Option (List Char) :=
    match scanFirst m [] t with
    | some (v, _, _) => if validOrd v then some v else none
    | none => none

def extractEmail (text : String) : String := ⟨extractEmailL text.data⟩

def extractPhone (text : String) : String := ⟨extractPhoneL text.data⟩

def extractZipCode (text : String) : String := ⟨extractZipCodeL text.data⟩

def extractOrderId (text : String) : String := ⟨extractOrderIdL text.data⟩

def extractAllFields (text : String) : ExtractedFields :=
  ⟨extractEmail text, extractPhone text, extractZipCode text, extractOrderId text⟩

/-- Metadata attached by the enhanced module; `processedAt` is the value of
`new Date().toISOString()` at call time, an input of the embedding. -/
structure Metadata where
  fileName : Option String
  processedAt : String
  textLength : Nat
  extractionMethod : String
deriving DecidableEq, Repr

structure ExtractedFieldsWithMetadata where
  email : String
  phone : String
  zipCode : String
  orderId : String
  metadata : Option Metadata
deriving DecidableEq, Repr

def extractAllFieldsWithMetadata (text : String) (fileName : Option String)
    (processedAt : String) : ExtractedFieldsWithMetadata :=
  let f := extractAllFields text
  ⟨f.email, f.phone, f.zipCode, f.orderId,
    some ⟨fileName, processedAt, text.length, "regex"⟩⟩

/-- Projection of the four fields of a metadata-carrying result. -/
def fieldsOf (r : ExtractedFieldsWithMetadata) : ExtractedFields :=
  ⟨r.email, r.phone, r.zipCode, r.orderId⟩

end enhancedFieldExtractor

/-! ## The backend extractor (modelled)

The context-aware extraction functions live in `backend/main.py`, which is not
among the checked-in frontend sources; only their HTTP callers and the design
documents describing them are.  The definitions below are therefore modelled
from the specification's rules (phone: bracketed format only, with a
preceding-window check for "order"; zip: keyword, then trailing-address, then
isolated-number preference; order id: explicit phrase with six or more
digits, else standalone nine or more digits away from phone context), with
the window sizes taken from the design documents. -/

namespace backendMain

/-- Modelled from the spec: the 50-character preceding-context window of
`backend/main.py`, tested case-insensitively for the token "order" (the
reversed prefix is the scanner's view of the preceding text). -/
def windowHasOrder (preRev : List Char) : Bool :=
  containsTok ['o', 'r', 'd', 'e', 'r'] ((preRev.take 50).reverse)

/-- Modelled from the spec: the same window tested for the token "phone". -/
def windowHasPhone (preRev : List Char) : Bool :=
  containsTok ['p', 'h', 'o', 'n', 'e'] ((preRev.take 50).reverse)

/-- Modelled from the spec: the phone matcher of `backend/main.py` — only the
bracketed `(area) exchange-line` format, discarded when the preceding window
contains "order", and returned in normalized `XXX-XXX-XXXX` form. -/
def mPhone : Mch := fun pre rest =>
  if windowHasOrder pre then none else
  match mBracketPhone pre rest with
  | some (v, md, r) =>
    some ((v.filter Char.isDigit).take 3 ++ '-' ::
            ((v.filter Char.isDigit).drop 3).take 3 ++ '-' ::
            ((v.filter Char.isDigit).drop 6), md, r)
  | none => none

/-- Modelled from the spec: `extract_phone` of `backend/main.py`. -/
def extract_phone (text : String) : String :=
  match scanFirst mPhone [] text.data with
  | some (v, _, _) => ⟨v⟩
  | none => "NA"

/-- Modelled from the spec: the order-id key phrase — "order" followed by
whitespace and "id", "number" or a hash sign, case-insensitively. -/
def mOrdPhrase : Mch := fun _pre rest =>
  match expectPfxCI ['o', 'r', 'd', 'e', 'r'] rest with
  | some (o, r1) =>
    let w := (splitRun isWsC r1).1
    let r2 := (splitRun isWsC r1).2
    if w.isEmpty then none else
    match (expectPfxCI ['i', 'd'] r2).orElse (fun _ =>
          (expectPfxCI ['n', 'u', 'm', 'b', 'e', 'r'] r2).orElse (fun _ =>
            expectPfxCI ['#'] r2)) with
    | some (k, r3) => some (o ++ w ++ k, o ++ w ++ k, r3)
    | none => none
  | none => none

/-- Modelled from the spec: a standalone digit token of at least six digits
with word boundaries. -/
def mDigits6 : Mch := fun pre rest =>
  if bdry pre then
    let d := (splitRun Char.isDigit rest).1
    let r := (splitRun Char.isDigit rest).2
    if 6 ≤ d.length && bdry r then some (d, d, r) else none
  else none

/-- Modelled from the spec: the explicit stage of `extract_order_id` — after
an order key phrase, the first standalone number of at least six digits
within the next 100 characters. -/
def mOrdExplicit : Mch := fun pre rest =>
  match mOrdPhrase pre rest with
  | some (_, md, r) =>
    match scanFirst mDigits6 [] (r.take 100) with
    | some (v, _, _) => some (v, md, r)
    | none => none
  | none => none

/-- Modelled from the spec: the standalone stage of `extract_order_id` — a
digit token of at least nine digits with word boundaries, not in a
phone context (no "phone" in the 50-character preceding window; the bracketed
phone format itself cannot contain a nine-digit bounded run). -/
def mOrdStandalone : Mch := fun pre rest =>
  if bdry pre && !windowHasPhone pre then
    let d := (splitRun Char.isDigit rest).1
    let r := (splitRun Char.isDigit rest).2
    if 9 ≤ d.length && bdry r then some (d, d, r) else none
  else none

/-- Modelled from the spec: `extract_order_id` of `backend/main.py` — the
explicit stage is preferred, the standalone stage is the fallback. -/
def extract_order_id (text : String) : String :=
  match scanFirst mOrdExplicit [] text.data with
  | some (v, _, _) => ⟨v⟩
  | none =>
  match scanFirst mOrdStandalone [] text.data with
  | some (v, _, _) => ⟨v⟩
  | none => "NA"

/-- Modelled from the spec: the keyword stage of `extract_zip_code` — "zip",
optionally followed by "code", "is" or a colon, then five digits. -/
def mZipKw : Mch := fun _pre rest =>
  match expectPfxCI ['z', 'i', 'p'] rest with
  | some (o, r1) =>
    let s1 := (splitRun (fun c => isWsC c || c == ':') r1).1
    let r2 := (splitRun (fun c => isWsC c || c == ':') r1).2
    match (expectPfxCI ['c', 'o', 'd', 'e'] r2).orElse (fun _ =>
            expectPfxCI ['i', 's'] r2) with
    | some (k, rk) =>
      let s2 := (splitRun (fun c => isWsC c || c == ':') rk).1
      let r3 := (splitRun (fun c => isWsC c || c == ':') rk).2
      match takeN Char.isDigit 5 r3 with
      | some (d, r4) =>
        if bdry r4 then some (d, o ++ s1 ++ k ++ s2 ++ d, r4) else none
      | none => none
    | none =>
      match takeN Char.isDigit 5 r2 with
      | some (d, r4) =>
        if bdry r4 then some (d, o ++ s1 ++ d, r4) else none
      | none => none
  | none => none

/-- Modelled from the spec: the trailing-address stage — a two-letter
uppercase state abbreviation, whitespace, five digits. -/
def mZipAddr : Mch := fun pre rest =>
  if bdry pre then
    match takeN Char.isUpper 2 rest with
    | some (st, r1) =>
      let w := (splitRun isWsC r1).1
      let r2 := (splitRun isWsC r1).2
      if w.isEmpty then none else
      match takeN Char.isDigit 5 r2 with
      | some (d, r3) => if bdry r3 then some (d, st ++ w ++ d, r3) else none
      | none => none
    | none => none
  else none

/-- Modelled from the spec: the last-resort stage — an isolated five-digit
number, skipped when the preceding window contains "order" or a nearby open
paren marks a phone pattern. -/
def mZipStandalone : Mch := fun pre rest =>
  if bdry pre && !windowHasOrder pre && !(pre.take 10).contains '(' then
    match takeN Char.isDigit 5 rest with
    | some (d, r) => if bdry r then some (d, d, r) else none
    | none => none
  else none

/-- Modelled from the spec: `extract_zip_code` of `backend/main.py` — the
keyword stage, then the trailing-address stage, then the standalone stage. -/
def extract_zip_code (text : String) : String :=
  match scanFirst mZipKw [] text.data with
  | some (v, _, _) => ⟨v⟩
  | none =>
  match scanFirst mZipAddr [] text.data with
  | some (v, _, _) => ⟨v⟩
  | none =>
  match scanFirst mZipStandalone [] text.data with
  | some (v, _, _) => ⟨v⟩
  | none => "NA"

end backendMain

/-- Concrete behaviour of the modelled backend phone extractor: the
bracketed number is normalized. -/
theorem backend_phone_normalizes_demo :
    backendMain.extract_phone "Phone (752) 693-4642." = "752-693-4642" := by decide

/-- Concrete behaviour of the modelled backend phone extractor: a bracketed
number immediately preceded by "order id" is discarded. -/
theorem backend_phone_order_window_demo :
    backendMain.extract_phone "order id (752) 693-4642" = "NA" := by decide

/-! ## Shape predicates

Decompositions that witness "some substring qualifying for the field under
its extraction rule".  They are stated structurally, independently of the
scanners, so that soundness of the scanners is a real statement. -/

/-- Shape of the strict bracketed phone pattern. -/
def BracketShape (s : List Char) : Prop :=
  ∃ a w b c, s = '(' :: a ++ ')' :: (w ++ b ++ '-' :: c) ∧
    a.length = 3 ∧ b.length = 3 ∧ c.length = 4 ∧
    a.all Char.isDigit ∧ b.all Char.isDigit ∧ c.all Char.isDigit ∧ w.all isWsC


theorem optOrElse_none {α : Type} (f : Unit → Option α) :
    (none : Option α).orElse f = f () := rfl

theorem optOrElse_some {α : Type} (a : α) (f : Unit → Option α) :
    (some a).orElse f = some a := rfl

theorem mBracketPhone_sound {pre l v md r : List Char}
    (h : mBracketPhone pre l = some (v, md, r)) :
    l = md ++ r ∧ v = md ∧ BracketShape md := by
  simp only [mBracketPhone] at h
  split at h
  · next r1 =>
    split at h
    · next a r2 h1 =>
      split at h
      · next r3 =>
        obtain ⟨w, ws2, hw12⟩ : ∃ w ws2, splitRun isWsC r3 = (w, ws2) := ⟨_, _, rfl⟩
        have hw : w ++ ws2 = r3 := by have := splitRun_append isWsC r3; rwa [hw12] at this
        have hwa : w.all isWsC = true := by have := splitRun_all isWsC r3; rwa [hw12] at this
        simp only [hw12] at h
        split at h
        · next b r5 h2 =>
          split at h
          · next r6 =>
            split at h
            · next c r7 h3 =>
              simp only [Option.some.injEq, Prod.mk.injEq] at h
              obtain ⟨hv, hmd, hr⟩ := h
              obtain ⟨e1, e2, e3⟩ := takeN_sound h1
              obtain ⟨f1, f2, f3⟩ := takeN_sound h2
              obtain ⟨g1, g2, g3⟩ := takeN_sound h3
              subst hr hmd hv
              refine ⟨?_, rfl, ⟨a, w, b, c, rfl, e2, f2, g2, e3, f3, g3, hwa⟩⟩
              subst e1 g1 f1 hw
              simp [List.append_assoc]
            · simp at h
          · simp at h
        · simp at h
      · simp at h
    · simp at h
  · simp at h

theorem mOrd1_sound {pre l v md r : List Char}
    (h : mOrd1 pre l = some (v, md, r)) :
    l = md ++ r ∧ ∃ o s, md = o ++ s ++ v ∧
      o.map Char.toLower = ['o', 'r', 'd', 'e', 'r'] ∧
      s.all isSepB ∧ v ≠ [] ∧ v.all Char.isAlphanum := by
  simp only [mOrd1] at h
  split at h
  · next o r1 h1 =>
    obtain ⟨s, r2, hs12⟩ : ∃ a b, splitRun isSepB r1 = (a, b) := ⟨_, _, rfl⟩
    have hs : s ++ r2 = r1 := by have := splitRun_append isSepB r1; rwa [hs12] at this
    have hsa : s.all isSepB = true := by have := splitRun_all isSepB r1; rwa [hs12] at this
    simp only [hs12] at h
    obtain ⟨g, r3, hg12⟩ : ∃ a b, splitRun Char.isAlphanum r2 = (a, b) := ⟨_, _, rfl⟩
    have hg : g ++ r3 = r2 := by have := splitRun_append Char.isAlphanum r2; rwa [hg12] at this
    have hga : g.all Char.isAlphanum = true := by
      have := splitRun_all Char.isAlphanum r2; rwa [hg12] at this
    simp only [hg12] at h
    split at h
    · simp at h
    · next hge =>
      simp only [Option.some.injEq, Prod.mk.injEq] at h
      obtain ⟨hv, hmd, hr⟩ := h
      obtain ⟨e1, e2⟩ := expectPfxCI_sound h1
      subst hr hmd hv
      refine ⟨?_, o, s, rfl, e2, hsa, by simpa using hge, hga⟩
      subst e1 hg hs
      simp [List.append_assoc]
  · simp at h

theorem mOrd2_sound {pre l v md r : List Char}
    (h : mOrd2 pre l = some (v, md, r)) :
    l = md ++ r ∧ ∃ o w k s, md = o ++ w ++ k ++ s ++ v ∧
      o.map Char.toLower = ['o', 'r', 'd', 'e', 'r'] ∧ w ≠ [] ∧ w.all isWsC ∧
      (k.map Char.toLower = ['i', 'd'] ∨ k.map Char.toLower = ['n', 'u', 'm', 'b', 'e', 'r']) ∧
      s.all isSepB ∧ v ≠ [] ∧ v.all Char.isAlphanum := by
  simp only [mOrd2] at h
  split at h
  · next o r1 h1 =>
    obtain ⟨w, r2, hw12⟩ : ∃ a b, splitRun isWsC r1 = (a, b) := ⟨_, _, rfl⟩
    have hw : w ++ r2 = r1 := by have := splitRun_append isWsC r1; rwa [hw12] at this
    have hwa : w.all isWsC = true := by have := splitRun_all isWsC r1; rwa [hw12] at this
    simp only [hw12] at h
    split at h
    · simp at h
    · next hwe =>
      split at h
      · next k r3 h2 =>
        obtain ⟨s, r4, hs12⟩ : ∃ a b, splitRun isSepB r3 = (a, b) := ⟨_, _, rfl⟩
        have hs : s ++ r4 = r3 := by have := splitRun_append isSepB r3; rwa [hs12] at this
        have hsa : s.all isSepB = true := by have := splitRun_all isSepB r3; rwa [hs12] at this
        simp only [hs12] at h
        obtain ⟨g, r5, hg12⟩ : ∃ a b, splitRun Char.isAlphanum r4 = (a, b) := ⟨_, _, rfl⟩
        have hg : g ++ r5 = r4 := by
          have := splitRun_append Char.isAlphanum r4; rwa [hg12] at this
        have hga : g.all Char.isAlphanum = true := by
          have := splitRun_all Char.isAlphanum r4; rwa [hg12] at this
        simp only [hg12] at h
        split at h
        · simp at h
        · next hge =>
          simp only [Option.some.injEq, Prod.mk.injEq] at h
          obtain ⟨hv, hmd, hr⟩ := h
          obtain ⟨e1, e2⟩ := expectPfxCI_sound h1
          have hk : r2 = k ++ r3 ∧
              (k.map Char.toLower = ['i', 'd'] ∨
                k.map Char.toLower = ['n', 'u', 'm', 'b', 'e', 'r']) := by
            rcases hic : expectPfxCI ['i', 'd'] r2 with _ | ⟨k', r3'⟩
            · simp only [hic, optOrElse_none] at h2
              obtain ⟨x1, x2⟩ := expectPfxCI_sound h2
              exact ⟨x1, Or.inr x2⟩
            · simp only [hic, optOrElse_some, Option.some.injEq, Prod.mk.injEq] at h2
              obtain ⟨x1, x2⟩ := expectPfxCI_sound hic
              obtain ⟨y1, y2⟩ := h2
              subst y1 y2
              exact ⟨x1, Or.inl x2⟩
          obtain ⟨hk1, hk2⟩ := hk
          subst hr hmd hv
          refine ⟨?_, o, w, k, s, rfl, e2, by simpa using hwe, hwa, hk2, hsa,
            by simpa using hge, hga⟩
          subst e1 hw hg hs hk1
          simp [List.append_assoc]
      · simp at h
  · simp at h

theorem mOrd3_sound {pre l v md r : List Char}
    (h : mOrd3 pre l = some (v, md, r)) :
    l = md ++ r ∧ md = '#' :: v ∧ v ≠ [] ∧ v.all Char.isAlphanum := by
  simp only [mOrd3] at h
  split at h
  · next r1 =>
    obtain ⟨g, r2, hg12⟩ : ∃ a b, splitRun Char.isAlphanum r1 = (a, b) := ⟨_, _, rfl⟩
    have hg : g ++ r2 = r1 := by have := splitRun_append Char.isAlphanum r1; rwa [hg12] at this
    have hga : g.all Char.isAlphanum = true := by
      have := splitRun_all Char.isAlphanum r1; rwa [hg12] at this
    simp only [hg12] at h
    split at h
    · simp at h
    · next hge =>
      simp only [Option.some.injEq, Prod.mk.injEq] at h
      obtain ⟨hv, hmd, hr⟩ := h
      subst hr hmd hv
      refine ⟨?_, rfl, by simpa using hge, hga⟩
      subst hg
      simp
  · simp at h

/-- Shape of basic order pattern 4 (one of its three alternatives). -/
def Ord4ShapeB (s : List Char) : Prop :=
  (∃ u d, s = u ++ d ∧ u.length = 2 ∧ u.all Char.isUpper ∧ 6 ≤ d.length ∧ d.all Char.isDigit) ∨
  (8 ≤ s.length ∧ s.all Char.isDigit) ∨
  (∃ c d, s = c :: d ∧ c.isUpper ∧ 7 ≤ d.length ∧ d.all Char.isDigit)

namespace fieldExtractor

theorem mEmail_sound {pre l v md r : List Char}
    (h : mEmail pre l = some (v, md, r)) :
    l = md ++ r ∧ v = md ∧ ∃ a b, md = a ++ '@' :: b ∧ a ≠ [] ∧ b ≠ [] ∧
      a.all isEmailB ∧ b.all isEmailB := by
  simp only [mEmail] at h
  obtain ⟨a, r1, ha12⟩ : ∃ x y, splitRun isEmailB l = (x, y) := ⟨_, _, rfl⟩
  have ha : a ++ r1 = l := by have := splitRun_append isEmailB l; rwa [ha12] at this
  have haa : a.all isEmailB = true := by have := splitRun_all isEmailB l; rwa [ha12] at this
  simp only [ha12] at h
  split at h
  · simp at h
  · next hae =>
    split at h
    · next r2 =>
      obtain ⟨b, r3, hb12⟩ : ∃ x y, splitRun isEmailB r2 = (x, y) := ⟨_, _, rfl⟩
      have hb : b ++ r3 = r2 := by have := splitRun_append isEmailB r2; rwa [hb12] at this
      have hba : b.all isEmailB = true := by have := splitRun_all isEmailB r2; rwa [hb12] at this
      simp only [hb12] at h
      split at h
      · simp at h
      · next hbe =>
        simp only [Option.some.injEq, Prod.mk.injEq] at h
        obtain ⟨hv, hmd, hr⟩ := h
        subst hr hmd hv
        refine ⟨?_, rfl, a, b, rfl, by simpa using hae, by simpa using hbe, haa, hba⟩
        subst hb ha
        simp [List.append_assoc]
    · simp at h

theorem mZip_sound {pre l v md r : List Char}
    (h : mZip pre l = some (v, md, r)) :
    l = md ++ r ∧ v = md ∧ md.length = 5 ∧ md.all Char.isDigit ∧
      bdry pre = true ∧ bdry r = true := by
  simp only [mZip] at h
  split at h
  · next hpre =>
    split at h
    · next d r1 h1 =>
      split at h
      · next hb =>
        simp only [Option.some.injEq, Prod.mk.injEq] at h
        obtain ⟨hv, hmd, hr⟩ := h
        obtain ⟨e1, e2, e3⟩ := takeN_sound h1
        subst hr hmd hv
        exact ⟨e1, rfl, e2, e3, hpre, hb⟩
      · simp at h
    · simp at h
  · simp at h

theorem mOrd4a_sound {pre l v md r : List Char}
    (h : mOrd4a pre l = some (v, md, r)) :
    l = md ++ r ∧ v = md ∧ bdry pre = true ∧ bdry r = true ∧ Ord4ShapeB md := by
  simp only [mOrd4a] at h
  split at h
  · next hpre =>
    split at h
    · next u r1 h1 =>
      obtain ⟨d, r2, hd12⟩ : ∃ x y, splitRun Char.isDigit r1 = (x, y) := ⟨_, _, rfl⟩
      have hd : d ++ r2 = r1 := by have := splitRun_append Char.isDigit r1; rwa [hd12] at this
      have hda : d.all Char.isDigit = true := by
        have := splitRun_all Char.isDigit r1; rwa [hd12] at this
      simp only [hd12] at h
      split at h
      · next hbb =>
        simp only [Option.some.injEq, Prod.mk.injEq] at h
        obtain ⟨hv, hmd, hr⟩ := h
        obtain ⟨e1, e2, e3⟩ := takeN_sound h1
        simp only [Bool.and_eq_true, decide_eq_true_eq] at hbb
        subst hr hmd hv
        refine ⟨?_, rfl, hpre, hbb.2, Or.inl ⟨u, d, rfl, e2, e3, hbb.1, hda⟩⟩
        subst e1 hd
        simp [List.append_assoc]
      · simp at h
    · simp at h
  · simp at h

theorem mOrd4b_sound {pre l v md r : List Char}
    (h : mOrd4b pre l = some (v, md, r)) :
    l = md ++ r ∧ v = md ∧ bdry pre = true ∧ bdry r = true ∧ Ord4ShapeB md := by
  simp only [mOrd4b] at h
  split at h
  · next hpre =>
    obtain ⟨d, r1, hd12⟩ : ∃ x y, splitRun Char.isDigit l = (x, y) := ⟨_, _, rfl⟩
    have hd : d ++ r1 = l := by have := splitRun_append Char.isDigit l; rwa [hd12] at this
    have hda : d.all Char.isDigit = true := by
      have := splitRun_all Char.isDigit l; rwa [hd12] at this
    simp only [hd12] at h
    split at h
    · next hbb =>
      simp only [Option.some.injEq, Prod.mk.injEq] at h
      obtain ⟨hv, hmd, hr⟩ := h
      simp only [Bool.and_eq_true, decide_eq_true_eq] at hbb
      subst hr hmd hv
      exact ⟨hd.symm, rfl, hpre, hbb.2, Or.inr (Or.inl ⟨hbb.1, hda⟩)⟩
    · simp at h
  · simp at h

theorem mOrd4c_sound {pre l v md r : List Char}
    (h : mOrd4c pre l = some (v, md, r)) :
    l = md ++ r ∧ v = md ∧ bdry pre = true ∧ bdry r = true ∧ Ord4ShapeB md := by
  simp only [mOrd4c] at h
  split at h
  · next hpre =>
    split at h
    · next c r1 =>
      split at h
      · next hcu =>
        obtain ⟨d, r2, hd12⟩ : ∃ x y, splitRun Char.isDigit r1 = (x, y) := ⟨_, _, rfl⟩
        have hd : d ++ r2 = r1 := by
          have := splitRun_append Char.isDigit r1; rwa [hd12] at this
        have hda : d.all Char.isDigit = true := by
          have := splitRun_all Char.isDigit r1; rwa [hd12] at this
        simp only [hd12] at h
        split at h
        · next hbb =>
          simp only [Option.some.injEq, Prod.mk.injEq] at h
          obtain ⟨hv, hmd, hr⟩ := h
          simp only [Bool.and_eq_true, decide_eq_true_eq] at hbb
          subst hr hmd hv
          refine ⟨?_, rfl, hpre, hbb.2, Or.inr (Or.inr ⟨c, d, rfl, hcu, hbb.1, hda⟩)⟩
          subst hd
          simp
        · simp at h
      · simp at h
    · simp at h
  · simp at h

theorem mOrd4_sound {pre l v md r : List Char}
    (h : mOrd4 pre l = some (v, md, r)) :
    l = md ++ r ∧ v = md ∧ bdry pre = true ∧ bdry r = true ∧ Ord4ShapeB md := by
  simp only [mOrd4] at h
  rcases ha : mOrd4a pre l with _ | x
  · rcases hb : mOrd4b pre l with _ | y
    · simp only [ha, hb, optOrElse_none] at h
      exact mOrd4c_sound h
    · simp only [ha, hb, optOrElse_none, optOrElse_some] at h
      cases h
      exact mOrd4b_sound hb
  · simp only [ha, optOrElse_some] at h
    cases h
    exact mOrd4a_sound ha

end fieldExtractor

theorem splitRun_head2 {p : Char → Bool} {l t : List Char} {c : Char}
    (h : (splitRun p l).2 = c :: t) : p c = false := by
  induction l with
  | nil => simp [splitRun] at h
  | cons d l ih =>
    simp only [splitRun, List.dropWhile] at h
    split at h
    · exact ih (by simpa [splitRun] using h)
    · next hd =>
      injection h with h1 _
      subst h1
      simpa using hd

/-- Shape of the enhanced email pattern. -/
def EmailShapeE (s : List Char) : Prop :=
  ∃ a d1 L, s = a ++ '@' :: (d1 ++ '.' :: L) ∧ a ≠ [] ∧ a.all isLocalE ∧
    d1 ≠ [] ∧ d1.all isDomainE ∧ 2 ≤ L.length ∧ L.all Char.isAlpha

/-- Shape of enhanced phone patterns 2 and 3 (`sep` is the dash or the dot). -/
def DashPhoneShape (sep : Char) (s : List Char) : Prop :=
  ∃ a b c, s = a ++ sep :: b ++ sep :: c ∧
    a.length = 3 ∧ b.length = 3 ∧ c.length = 4 ∧
    a.all Char.isDigit ∧ b.all Char.isDigit ∧ c.all Char.isDigit

/-- Shape of enhanced phone pattern 4. -/
def PlusPhoneShape (s : List Char) : Prop :=
  ∃ w1 a w2 b w3 c, s = '+' :: '1' :: (w1 ++ a ++ w2 ++ b ++ w3 ++ c) ∧
    w1.all isWsC ∧ w2.all isWsC ∧ w3.all isWsC ∧
    a.length = 3 ∧ b.length = 3 ∧ c.length = 4 ∧
    a.all Char.isDigit ∧ b.all Char.isDigit ∧ c.all Char.isDigit

/-- Shape of enhanced phone pattern 5 (the lenient one). -/
def LenientPhoneShape (s : List Char) : Prop :=
  ∃ lead inner dgt, s = lead ++ inner ++ [dgt] ∧
    (∃ c0, (lead = [c0] ∨ lead = ['+', c0]) ∧ c0.isDigit) ∧
    inner.all isPhoneRunE ∧ 8 ≤ inner.length ∧ dgt.isDigit

/-- Shape of the enhanced zip pattern. -/
def ZipShapeE (s : List Char) : Prop :=
  (s.length = 5 ∧ s.all Char.isDigit) ∨
  (∃ d e, s = d ++ '-' :: e ∧ d.length = 5 ∧ e.length = 4 ∧
    d.all Char.isDigit ∧ e.all Char.isDigit)

/-- Shape of enhanced order pattern 4 (one of its three alternatives). -/
def Ord4ShapeE (s : List Char) : Prop :=
  (∃ u d, s = u ++ d ∧ 2 ≤ u.length ∧ u.all Char.isUpper ∧ 4 ≤ d.length ∧ d.all Char.isDigit) ∨
  (∃ d u, s = d ++ u ∧ 6 ≤ d.length ∧ d.all Char.isDigit ∧ 1 ≤ u.length ∧ u.all Char.isUpper) ∨
  (∃ c d, s = c :: d ∧ c.isUpper ∧ 5 ≤ d.length ∧ d.all Char.isDigit)

namespace enhancedFieldExtractor

theorem domSplit_sound {acc D d1 L r : List Char}
    (h : domSplit acc D = some (d1, L, r)) :
    d1 ++ '.' :: (L ++ r) = acc.reverse ++ D ∧ d1 ≠ [] ∧
      2 ≤ L.length ∧ L.all Char.isAlpha := by
  induction D generalizing acc with
  | nil => simp [domSplit] at h
  | cons c t ih =>
    simp only [domSplit] at h
    split at h
    · next r' hrec =>
      cases h
      have := ih hrec
      simpa using this
    · split at h
      · next hc =>
        simp only [Bool.and_eq_true, beq_iff_eq, Bool.not_eq_true'] at hc
        obtain ⟨hc1, hc2⟩ := hc
        subst hc1
        obtain ⟨Lp, rp, hl12⟩ : ∃ x y, splitRun Char.isAlpha t = (x, y) := ⟨_, _, rfl⟩
        have hl : Lp ++ rp = t := by have := splitRun_append Char.isAlpha t; rwa [hl12] at this
        have hla : Lp.all Char.isAlpha = true := by
          have := splitRun_all Char.isAlpha t; rwa [hl12] at this
        simp only [hl12] at h
        split at h
        · next hlen =>
          simp only [Option.some.injEq, Prod.mk.injEq] at h
          obtain ⟨h1, h2, h3⟩ := h
          subst h1 h2 h3
          refine ⟨by simp [hl], ?_, hlen, hla⟩
          intro hrev
          rw [List.reverse_eq_nil_iff] at hrev
          rw [hrev] at hc2
          simp at hc2
        · simp at h
      · simp at h

theorem mEmailE_sound {pre l v md r : List Char}
    (h : mEmail pre l = some (v, md, r)) :
    l = md ++ r ∧ v = md ∧ EmailShapeE md := by
  simp only [mEmail] at h
  obtain ⟨a, r1, ha12⟩ : ∃ x y, splitRun isLocalE l = (x, y) := ⟨_, _, rfl⟩
  have ha : a ++ r1 = l := by have := splitRun_append isLocalE l; rwa [ha12] at this
  have haa : a.all isLocalE = true := by have := splitRun_all isLocalE l; rwa [ha12] at this
  simp only [ha12] at h
  split at h
  · simp at h
  · next hae =>
    split at h
    · next r2 =>
      obtain ⟨D, r3, hD12⟩ : ∃ x y, splitRun isDomainE r2 = (x, y) := ⟨_, _, rfl⟩
      have hD : D ++ r3 = r2 := by have := splitRun_append isDomainE r2; rwa [hD12] at this
      have hDa : D.all isDomainE = true := by
        have := splitRun_all isDomainE r2; rwa [hD12] at this
      simp only [hD12] at h
      split at h
      · next d1 L dRest hdom =>
        simp only [Option.some.injEq, Prod.mk.injEq] at h
        obtain ⟨hv, hmd, hr⟩ := h
        obtain ⟨e1, e2, e3, e4⟩ := domSplit_sound hdom
        simp only [List.reverse_nil, List.nil_append] at e1
        have hd1a : d1.all isDomainE = true ∧ L.all isDomainE = true := by
          rw [← e1] at hDa
          simp only [List.all_append, List.all_cons, Bool.and_eq_true] at hDa
          exact ⟨hDa.1, hDa.2.2.1⟩
        subst hr hmd hv
        refine ⟨?_, rfl, a, d1, L, rfl, by simpa using hae, haa, e2, hd1a.1, e3, e4⟩
        have : D = d1 ++ '.' :: (L ++ dRest) := e1.symm
        subst ha hD this
        simp [List.append_assoc]
      · simp at h
    · simp at h

theorem mPh2_sound {pre l v md r : List Char}
    (h : mPh2 pre l = some (v, md, r)) :
    l = md ++ r ∧ v = md ∧ bdry pre = true ∧ bdry r = true ∧ DashPhoneShape '-' md := by
  simp only [mPh2] at h
  split at h
  · next hpre =>
    split at h
    · next a r1 h1 =>
      split at h
      · next r2 =>
        split at h
        · next b r3 h2 =>
          split at h
          · next r4 =>
            split at h
            · next c r5 h3 =>
              split at h
              · next hb =>
                simp only [Option.some.injEq, Prod.mk.injEq] at h
                obtain ⟨hv, hmd, hr⟩ := h
                obtain ⟨e1, e2, e3⟩ := takeN_sound h1
                obtain ⟨f1, f2, f3⟩ := takeN_sound h2
                obtain ⟨g1, g2, g3⟩ := takeN_sound h3
                subst hr hmd hv
                refine ⟨?_, rfl, hpre, hb, a, b, c, rfl, e2, f2, g2, e3, f3, g3⟩
                subst e1 f1 g1
                simp [List.append_assoc]
              · simp at h
            · simp at h
          · simp at h
        · simp at h
      · simp at h
    · simp at h
  · simp at h

theorem mPh3_sound {pre l v md r : List Char}
    (h : mPh3 pre l = some (v, md, r)) :
    l = md ++ r ∧ v = md ∧ bdry pre = true ∧ bdry r = true ∧ DashPhoneShape '.' md := by
  simp only [mPh3] at h
  split at h
  · next hpre =>
    split at h
    · next a r1 h1 =>
      split at h
      · next r2 =>
        split at h
        · next b r3 h2 =>
          split at h
          · next r4 =>
            split at h
            · next c r5 h3 =>
              split at h
              · next hb =>
                simp only [Option.some.injEq, Prod.mk.injEq] at h
                obtain ⟨hv, hmd, hr⟩ := h
                obtain ⟨e1, e2, e3⟩ := takeN_sound h1
                obtain ⟨f1, f2, f3⟩ := takeN_sound h2
                obtain ⟨g1, g2, g3⟩ := takeN_sound h3
                subst hr hmd hv
                refine ⟨?_, rfl, hpre, hb, a, b, c, rfl, e2, f2, g2, e3, f3, g3⟩
                subst e1 f1 g1
                simp [List.append_assoc]
              · simp at h
            · simp at h
          · simp at h
        · simp at h
      · simp at h
    · simp at h
  · simp at h

theorem mPh4_sound {pre l v md r : List Char}
    (h : mPh4 pre l = some (v, md, r)) :
    l = md ++ r ∧ v = md ∧ PlusPhoneShape md := by
  simp only [mPh4] at h
  split at h
  · next r1 =>
    obtain ⟨w1, r2, hw12⟩ : ∃ x y, splitRun isWsC r1 = (x, y) := ⟨_, _, rfl⟩
    have hw1 : w1 ++ r2 = r1 := by have := splitRun_append isWsC r1; rwa [hw12] at this
    have hw1a : w1.all isWsC = true := by have := splitRun_all isWsC r1; rwa [hw12] at this
    simp only [hw12] at h
    split at h
    · next a r3 h1 =>
      obtain ⟨w2, r4, hw34⟩ : ∃ x y, splitRun isWsC r3 = (x, y) := ⟨_, _, rfl⟩
      have hw2 : w2 ++ r4 = r3 := by have := splitRun_append isWsC r3; rwa [hw34] at this
      have hw2a : w2.all isWsC = true := by have := splitRun_all isWsC r3; rwa [hw34] at this
      simp only [hw34] at h
      split at h
      · next b r5 h2 =>
        obtain ⟨w3, r6, hw56⟩ : ∃ x y, splitRun isWsC r5 = (x, y) := ⟨_, _, rfl⟩
        have hw3 : w3 ++ r6 = r5 := by have := splitRun_append isWsC r5; rwa [hw56] at this
        have hw3a : w3.all isWsC = true := by have := splitRun_all isWsC r5; rwa [hw56] at this
        simp only [hw56] at h
        split at h
        · next c r7 h3 =>
          simp only [Option.some.injEq, Prod.mk.injEq] at h
          obtain ⟨hv, hmd, hr⟩ := h
          obtain ⟨e1, e2, e3⟩ := takeN_sound h1
          obtain ⟨f1, f2, f3⟩ := takeN_sound h2
          obtain ⟨g1, g2, g3⟩ := takeN_sound h3
          subst hr hmd hv
          refine ⟨?_, rfl, w1, a, w2, b, w3, c, rfl, hw1a, hw2a, hw3a, e2, f2, g2, e3, f3, g3⟩
          subst e1 f1 g1 hw1 hw2 hw3
          simp [List.append_assoc]
        · simp at h
      · simp at h
    · simp at h
  · simp at h

theorem lastDigitSplit_sound {R inner after : List Char} {d : Char}
    (h : lastDigitSplit R = some (inner, d, after)) :
    R = inner ++ d :: after ∧ d.isDigit = true := by
  simp only [lastDigitSplit] at h
  split at h
  · next d' innerRev hsp =>
    simp only [Option.some.injEq, Prod.mk.injEq] at h
    obtain ⟨h1, h2, h3⟩ := h
    have hdd : (fun c => !c.isDigit) d' = false := splitRun_head2 hsp
    have happ := splitRun_append (fun c => !c.isDigit) R.reverse
    rw [hsp] at happ
    subst h1 h2 h3
    constructor
    · have h4 : R.reverse.reverse = ((splitRun (fun c => !c.isDigit) R.reverse).1 ++
          (d' :: innerRev)).reverse := by rw [happ]
      simpa using h4
    · simpa using hdd
  · simp at h

theorem mPh5_sound {pre l v md r : List Char}
    (h : mPh5 pre l = some (v, md, r)) :
    l = md ++ r ∧ v = md ∧ LenientPhoneShape md := by
  have core : ∀ (lead rr : List Char), mPh5.mPh5core lead rr = some (v, md, r) →
      rr = (md.drop lead.length) ++ r ∧ v = md ∧ md.take lead.length = lead ∧
      ∃ inner dgt, md = lead ++ inner ++ [dgt] ∧ inner.all isPhoneRunE ∧
        8 ≤ inner.length ∧ dgt.isDigit = true := by
    intro lead rr hc
    simp only [mPh5.mPh5core] at hc
    obtain ⟨R, r2, hR12⟩ : ∃ x y, splitRun isPhoneRunE rr = (x, y) := ⟨_, _, rfl⟩
    have hR : R ++ r2 = rr := by have := splitRun_append isPhoneRunE rr; rwa [hR12] at this
    have hRa : R.all isPhoneRunE = true := by
      have := splitRun_all isPhoneRunE rr; rwa [hR12] at this
    simp only [hR12] at hc
    split at hc
    · next inner dgt after hls =>
      split at hc
      · next hlen =>
        simp only [Option.some.injEq, Prod.mk.injEq] at hc
        obtain ⟨hv, hmd, hr⟩ := hc
        obtain ⟨e1, e2⟩ := lastDigitSplit_sound hls
        have hia : inner.all isPhoneRunE = true := by
          rw [e1] at hRa
          simp only [List.all_append, List.all_cons, Bool.and_eq_true] at hRa
          exact hRa.1
        subst hr hmd hv
        refine ⟨?_, rfl, by simp, inner, dgt, rfl, hia, hlen, e2⟩
        rw [← hR, e1]
        simp [List.append_assoc]
      · simp at hc
    · simp at hc
  simp only [mPh5] at h
  split at h
  · simp at h
  · next c rr =>
    split at h
    · next hplus =>
      have hceq : c = '+' := eq_of_beq hplus
      subst hceq
      split at h
      · next c2 r2 =>
        split at h
        · next hcd =>
          obtain ⟨c1, cv, c3, inner, dgt, c4, c5, c6, c7⟩ := core _ _ h
          refine ⟨?_, cv, ['+', c2], inner, dgt, c4, ⟨c2, Or.inr rfl, hcd⟩, c5, c6, c7⟩
          rw [c4] at c1 ⊢
          simp only [List.append_assoc, List.cons_append, List.nil_append] at c1 ⊢
          simp [c1]
        · simp at h
      · simp at h
    · split at h
      · next hcd =>
        obtain ⟨c1, cv, c3, inner, dgt, c4, c5, c6, c7⟩ := core _ _ h
        refine ⟨?_, cv, [c], inner, dgt, c4, ⟨c, Or.inl rfl, hcd⟩, c5, c6, c7⟩
        rw [c4] at c1 ⊢
        simp only [List.append_assoc, List.cons_append, List.nil_append] at c1 ⊢
        simp [c1]
      · simp at h

theorem mZipE_sound {pre l v md r : List Char}
    (h : mZip pre l = some (v, md, r)) :
    l = md ++ r ∧ v = md ∧ bdry pre = true ∧ bdry r = true ∧ ZipShapeE md := by
  simp only [mZip] at h
  split at h
  · next hpre =>
    split at h
    · next d r1 h1 =>
      obtain ⟨e1, e2, e3⟩ := takeN_sound h1
      split at h
      · next r2 =>
        split at h
        · next e r3 h2 =>
          obtain ⟨f1, f2, f3⟩ := takeN_sound h2
          split at h
          · next hb =>
            simp only [Option.some.injEq, Prod.mk.injEq] at h
            obtain ⟨hv, hmd, hr⟩ := h
            subst hr hmd hv
            refine ⟨?_, rfl, hpre, hb, Or.inr ⟨d, e, rfl, e2, f2, e3, f3⟩⟩
            subst e1 f1
            simp [List.append_assoc]
          · split at h
            · next hb2 =>
              simp only [Option.some.injEq, Prod.mk.injEq] at h
              obtain ⟨hv, hmd, hr⟩ := h
              subst hr hmd hv
              exact ⟨e1, rfl, hpre, hb2, Or.inl ⟨e2, e3⟩⟩
            · simp at h
        · split at h
          · next hb2 =>
            simp only [Option.some.injEq, Prod.mk.injEq] at h
            obtain ⟨hv, hmd, hr⟩ := h
            subst hr hmd hv
            exact ⟨e1, rfl, hpre, hb2, Or.inl ⟨e2, e3⟩⟩
          · simp at h
      · split at h
        · next hb2 =>
          simp only [Option.some.injEq, Prod.mk.injEq] at h
          obtain ⟨hv, hmd, hr⟩ := h
          subst hr hmd hv
          exact ⟨e1, rfl, hpre, hb2, Or.inl ⟨e2, e3⟩⟩
        · simp at h
    · simp at h
  · simp at h

theorem mOrd4aE_sound {pre l v md r : List Char}
    (h : mOrd4a pre l = some (v, md, r)) :
    l = md ++ r ∧ v = md ∧ bdry pre = true ∧ bdry r = true ∧ Ord4ShapeE md := by
  simp only [mOrd4a] at h
  split at h
  · next hpre =>
    obtain ⟨u, r1, hu12⟩ : ∃ x y, splitRun Char.isUpper l = (x, y) := ⟨_, _, rfl⟩
    have hu : u ++ r1 = l := by have := splitRun_append Char.isUpper l; rwa [hu12] at this
    have hua : u.all Char.isUpper = true := by
      have := splitRun_all Char.isUpper l; rwa [hu12] at this
    simp only [hu12] at h
    split at h
    · next hul =>
      obtain ⟨d, r2, hd12⟩ : ∃ x y, splitRun Char.isDigit r1 = (x, y) := ⟨_, _, rfl⟩
      have hd : d ++ r2 = r1 := by have := splitRun_append Char.isDigit r1; rwa [hd12] at this
      have hda : d.all Char.isDigit = true := by
        have := splitRun_all Char.isDigit r1; rwa [hd12] at this
      simp only [hd12] at h
      split at h
      · next hbb =>
        simp only [Bool.and_eq_true, decide_eq_true_eq] at hbb
        simp only [Option.some.injEq, Prod.mk.injEq] at h
        obtain ⟨hv, hmd, hr⟩ := h
        subst hr hmd hv
        refine ⟨?_, rfl, hpre, hbb.2, Or.inl ⟨u, d, rfl, hul, hua, hbb.1, hda⟩⟩
        subst hd hu
        simp [List.append_assoc]
      · simp at h
    · simp at h
  · simp at h

theorem mOrd4bE_sound {pre l v md r : List Char}
    (h : mOrd4b pre l = some (v, md, r)) :
    l = md ++ r ∧ v = md ∧ bdry pre = true ∧ bdry r = true ∧ Ord4ShapeE md := by
  simp only [mOrd4b] at h
  split at h
  · next hpre =>
    obtain ⟨d, r1, hd12⟩ : ∃ x y, splitRun Char.isDigit l = (x, y) := ⟨_, _, rfl⟩
    have hd : d ++ r1 = l := by have := splitRun_append Char.isDigit l; rwa [hd12] at this
    have hda : d.all Char.isDigit = true := by
      have := splitRun_all Char.isDigit l; rwa [hd12] at this
    simp only [hd12] at h
    split at h
    · next hdl =>
      obtain ⟨u, r2, hu12⟩ : ∃ x y, splitRun Char.isUpper r1 = (x, y) := ⟨_, _, rfl⟩
      have hu : u ++ r2 = r1 := by have := splitRun_append Char.isUpper r1; rwa [hu12] at this
      have hua : u.all Char.isUpper = true := by
        have := splitRun_all Char.isUpper r1; rwa [hu12] at this
      simp only [hu12] at h
      split at h
      · next hbb =>
        simp only [Bool.and_eq_true, decide_eq_true_eq] at hbb
        simp only [Option.some.injEq, Prod.mk.injEq] at h
        obtain ⟨hv, hmd, hr⟩ := h
        subst hr hmd hv
        refine ⟨?_, rfl, hpre, hbb.2, Or.inr (Or.inl ⟨d, u, rfl, hdl, hda, hbb.1, hua⟩)⟩
        subst hu hd
        simp [List.append_assoc]
      · simp at h
    · simp at h
  · simp at h

theorem mOrd4cE_sound {pre l v md r : List Char}
    (h : mOrd4c pre l = some (v, md, r)) :
    l = md ++ r ∧ v = md ∧ bdry pre = true ∧ bdry r = true ∧ Ord4ShapeE md := by
  simp only [mOrd4c] at h
  split at h
  · next hpre =>
    split at h
    · next c r1 =>
      split at h
      · next hcu =>
        obtain ⟨d, r2, hd12⟩ : ∃ x y, splitRun Char.isDigit r1 = (x, y) := ⟨_, _, rfl⟩
        have hd : d ++ r2 = r1 := by
          have := splitRun_append Char.isDigit r1; rwa [hd12] at this
        have hda : d.all Char.isDigit = true := by
          have := splitRun_all Char.isDigit r1; rwa [hd12] at this
        simp only [hd12] at h
        split at h
        · next hbb =>
          simp only [Bool.and_eq_true, decide_eq_true_eq] at hbb
          simp only [Option.some.injEq, Prod.mk.injEq] at h
          obtain ⟨hv, hmd, hr⟩ := h
          subst hr hmd hv
          refine ⟨?_, rfl, hpre, hbb.2, Or.inr (Or.inr ⟨c, d, rfl, hcu, hbb.1, hda⟩)⟩
          subst hd
          simp
        · simp at h
      · simp at h
    · simp at h
  · simp at h

theorem mOrd4E_sound {pre l v md r : List Char}
    (h : mOrd4 pre l = some (v, md, r)) :
    l = md ++ r ∧ v = md ∧ bdry pre = true ∧ bdry r = true ∧ Ord4ShapeE md := by
  simp only [mOrd4] at h
  rcases ha : mOrd4a pre l with _ | x
  · rcases hb : mOrd4b pre l with _ | y
    · simp only [ha, hb, optOrElse_none] at h
      exact mOrd4cE_sound h
    · simp only [ha, hb, optOrElse_none, optOrElse_some] at h
      cases h
      exact mOrd4bE_sound hb
  · simp only [ha, optOrElse_some] at h
    cases h
    exact mOrd4aE_sound ha

theorem mOrdKw_sound {kw pre l v md r : List Char}
    (h : mOrdKw kw pre l = some (v, md, r)) :
    l = md ++ r ∧ ∃ o s, md = o ++ s ++ v ∧ o.map Char.toLower = kw ∧
      s.all isSepE ∧ v ≠ [] ∧ v.all Char.isAlphanum := by
  simp only [mOrdKw] at h
  split at h
  · next o r1 h1 =>
    obtain ⟨s, r2, hs12⟩ : ∃ a b, splitRun isSepE r1 = (a, b) := ⟨_, _, rfl⟩
    have hs : s ++ r2 = r1 := by have := splitRun_append isSepE r1; rwa [hs12] at this
    have hsa : s.all isSepE = true := by have := splitRun_all isSepE r1; rwa [hs12] at this
    simp only [hs12] at h
    obtain ⟨g, r3, hg12⟩ : ∃ a b, splitRun Char.isAlphanum r2 = (a, b) := ⟨_, _, rfl⟩
    have hg : g ++ r3 = r2 := by have := splitRun_append Char.isAlphanum r2; rwa [hg12] at this
    have hga : g.all Char.isAlphanum = true := by
      have := splitRun_all Char.isAlphanum r2; rwa [hg12] at this
    simp only [hg12] at h
    split at h
    · simp at h
    · next hge =>
      simp only [Option.some.injEq, Prod.mk.injEq] at h
      obtain ⟨hv, hmd, hr⟩ := h
      obtain ⟨e1, e2⟩ := expectPfxCI_sound h1
      subst hr hmd hv
      refine ⟨?_, o, s, rfl, e2, hsa, by simpa using hge, hga⟩
      subst e1 hg hs
      simp [List.append_assoc]
  · simp at h

theorem mOrd5_sound {pre l v md r : List Char}
    (h : mOrd5 pre l = some (v, md, r)) :
    l = md ++ r ∧ bdry pre = true ∧ ∃ o s, md = o ++ s ++ v ∧
      (o.map Char.toLower = ['o', 'r', 'd', 'e', 'r'] ∨ o.map Char.toLower = ['o', 'r', 'd'] ∨
        o.map Char.toLower = ['r', 'e', 'f']) ∧
      s.all isSepE ∧ v ≠ [] ∧ v.all Char.isAlphanum := by
  simp only [mOrd5] at h
  split at h
  · next hpre =>
    rcases hA : mOrdKw ['o', 'r', 'd', 'e', 'r'] pre l with _ | x
    · rcases hB : mOrdKw ['o', 'r', 'd'] pre l with _ | y
      · simp only [hA, hB, optOrElse_none] at h
        obtain ⟨c1, o, s, c2, c3, c4, c5, c6⟩ := mOrdKw_sound h
        exact ⟨c1, hpre, o, s, c2, Or.inr (Or.inr c3), c4, c5, c6⟩
      · simp only [hA, hB, optOrElse_none, optOrElse_some] at h
        cases h
        obtain ⟨c1, o, s, c2, c3, c4, c5, c6⟩ := mOrdKw_sound hB
        exact ⟨c1, hpre, o, s, c2, Or.inr (Or.inl c3), c4, c5, c6⟩
    · simp only [hA, optOrElse_some] at h
      cases h
      obtain ⟨c1, o, s, c2, c3, c4, c5, c6⟩ := mOrdKw_sound hA
      exact ⟨c1, hpre, o, s, c2, Or.inl c3, c4, c5, c6⟩
  · simp at h

theorem mOrd6_sound {pre l v md r : List Char}
    (h : mOrd6 pre l = some (v, md, r)) :
    l = md ++ r ∧ bdry pre = true ∧ ∃ o s, md = o ++ s ++ v ∧
      (o.map Char.toLower = ['i', 'n', 'v'] ∨ o.map Char.toLower = ['t', 'x', 'n'] ∨
        o.map Char.toLower = ['r', 'e', 'f']) ∧
      s.all isSepE ∧ v ≠ [] ∧ v.all Char.isAlphanum := by
  simp only [mOrd6] at h
  split at h
  · next hpre =>
    rcases hA : mOrdKw ['i', 'n', 'v'] pre l with _ | x
    · rcases hB : mOrdKw ['t', 'x', 'n'] pre l with _ | y
      · simp only [hA, hB, optOrElse_none] at h
        obtain ⟨c1, o, s, c2, c3, c4, c5, c6⟩ := mOrdKw_sound h
        exact ⟨c1, hpre, o, s, c2, Or.inr (Or.inr c3), c4, c5, c6⟩
      · simp only [hA, hB, optOrElse_none, optOrElse_some] at h
        cases h
        obtain ⟨c1, o, s, c2, c3, c4, c5, c6⟩ := mOrdKw_sound hB
        exact ⟨c1, hpre, o, s, c2, Or.inr (Or.inl c3), c4, c5, c6⟩
    · simp only [hA, optOrElse_some] at h
      cases h
      obtain ⟨c1, o, s, c2, c3, c4, c5, c6⟩ := mOrdKw_sound hA
      exact ⟨c1, hpre, o, s, c2, Or.inl c3, c4, c5, c6⟩
  · simp at h

end enhancedFieldExtractor

namespace backendMain

theorem mPhone_sound {pre l v md r : List Char}
    (h : mPhone pre l = some (v, md, r)) :
    l = md ++ r ∧ BracketShape md ∧ windowHasOrder pre = false ∧
      v = (md.filter Char.isDigit).take 3 ++ '-' ::
            ((md.filter Char.isDigit).drop 3).take 3 ++ '-' ::
            ((md.filter Char.isDigit).drop 6) := by
  simp only [mPhone] at h
  split at h
  · simp at h
  · next hw =>
    split at h
    · next v0 md0 r0 hbp =>
      obtain ⟨c1, c2, c3⟩ := mBracketPhone_sound hbp
      simp only [Option.some.injEq, Prod.mk.injEq] at h
      obtain ⟨hv, hmd, hr⟩ := h
      subst hr hmd hv c2
      exact ⟨c1, c3, by simpa using hw, rfl⟩
    · simp at h

theorem mOrdPhrase_sound {pre l v md r : List Char}
    (h : mOrdPhrase pre l = some (v, md, r)) :
    l = md ++ r ∧ ∃ o w k, md = o ++ w ++ k ∧
      o.map Char.toLower = ['o', 'r', 'd', 'e', 'r'] ∧ w ≠ [] ∧ w.all isWsC ∧
      (k.map Char.toLower = ['i', 'd'] ∨ k.map Char.toLower = ['n', 'u', 'm', 'b', 'e', 'r'] ∨
        k.map Char.toLower = ['#']) := by
  simp only [mOrdPhrase] at h
  split at h
  · next o r1 h1 =>
    obtain ⟨w, r2, hw12⟩ : ∃ a b, splitRun isWsC r1 = (a, b) := ⟨_, _, rfl⟩
    have hw : w ++ r2 = r1 := by have := splitRun_append isWsC r1; rwa [hw12] at this
    have hwa : w.all isWsC = true := by have := splitRun_all isWsC r1; rwa [hw12] at this
    simp only [hw12] at h
    split at h
    · simp at h
    · next hwe =>
      split at h
      · next k r3 h2 =>
        have hk : r2 = k ++ r3 ∧
            (k.map Char.toLower = ['i', 'd'] ∨
              k.map Char.toLower = ['n', 'u', 'm', 'b', 'e', 'r'] ∨
              k.map Char.toLower = ['#']) := by
          rcases hic : expectPfxCI ['i', 'd'] r2 with _ | ⟨k1, r1'⟩
          · rcases hnc : expectPfxCI ['n', 'u', 'm', 'b', 'e', 'r'] r2 with _ | ⟨k2, r2'⟩
            · simp only [hic, hnc, optOrElse_none] at h2
              obtain ⟨x1, x2⟩ := expectPfxCI_sound h2
              exact ⟨x1, Or.inr (Or.inr x2)⟩
            · simp only [hic, hnc, optOrElse_none, optOrElse_some,
                Option.some.injEq, Prod.mk.injEq] at h2
              obtain ⟨y1, y2⟩ := h2
              subst y1 y2
              obtain ⟨x1, x2⟩ := expectPfxCI_sound hnc
              exact ⟨x1, Or.inr (Or.inl x2)⟩
          · simp only [hic, optOrElse_some, Option.some.injEq, Prod.mk.injEq] at h2
            obtain ⟨y1, y2⟩ := h2
            subst y1 y2
            obtain ⟨x1, x2⟩ := expectPfxCI_sound hic
            exact ⟨x1, Or.inl x2⟩
        obtain ⟨hk1, hk2⟩ := hk
        simp only [Option.some.injEq, Prod.mk.injEq] at h
        obtain ⟨hv, hmd, hr⟩ := h
        obtain ⟨e1, e2⟩ := expectPfxCI_sound h1
        subst hr hmd hv
        refine ⟨?_, o, w, k, rfl, e2, by simpa using hwe, hwa, hk2⟩
        subst e1 hw hk1
        simp [List.append_assoc]
      · simp at h
  · simp at h

theorem mDigits6_sound {pre l v md r : List Char}
    (h : mDigits6 pre l = some (v, md, r)) :
    l = md ++ r ∧ v = md ∧ bdry pre = true ∧ bdry r = true ∧
      6 ≤ md.length ∧ md.all Char.isDigit := by
  simp only [mDigits6] at h
  split at h
  · next hpre =>
    obtain ⟨d, r1, hd12⟩ : ∃ x y, splitRun Char.isDigit l = (x, y) := ⟨_, _, rfl⟩
    have hd : d ++ r1 = l := by have := splitRun_append Char.isDigit l; rwa [hd12] at this
    have hda : d.all Char.isDigit = true := by
      have := splitRun_all Char.isDigit l; rwa [hd12] at this
    simp only [hd12] at h
    split at h
    · next hbb =>
      simp only [Bool.and_eq_true, decide_eq_true_eq] at hbb
      simp only [Option.some.injEq, Prod.mk.injEq] at h
      obtain ⟨hv, hmd, hr⟩ := h
      subst hr hmd hv
      exact ⟨hd.symm, rfl, hpre, hbb.2, hbb.1, hda⟩
    · simp at h
  · simp at h

theorem mOrdStandalone_sound {pre l v md r : List Char}
    (h : mOrdStandalone pre l = some (v, md, r)) :
    l = md ++ r ∧ v = md ∧ bdry pre = true ∧ bdry r = true ∧
      9 ≤ md.length ∧ md.all Char.isDigit ∧ windowHasPhone pre = false := by
  simp only [mOrdStandalone] at h
  split at h
  · next hpre =>
    simp only [Bool.and_eq_true, Bool.not_eq_true'] at hpre
    obtain ⟨d, r1, hd12⟩ : ∃ x y, splitRun Char.isDigit l = (x, y) := ⟨_, _, rfl⟩
    have hd : d ++ r1 = l := by have := splitRun_append Char.isDigit l; rwa [hd12] at this
    have hda : d.all Char.isDigit = true := by
      have := splitRun_all Char.isDigit l; rwa [hd12] at this
    simp only [hd12] at h
    split at h
    · next hbb =>
      simp only [Bool.and_eq_true, decide_eq_true_eq] at hbb
      simp only [Option.some.injEq, Prod.mk.injEq] at h
      obtain ⟨hv, hmd, hr⟩ := h
      subst hr hmd hv
      exact ⟨hd.symm, rfl, hpre.1, hbb.2, hbb.1, hda, hpre.2⟩
    · simp at h
  · simp at h

theorem mOrdExplicit_sound {pre l v md r : List Char}
    (h : mOrdExplicit pre l = some (v, md, r)) :
    l = md ++ r ∧ (∃ o w k, md = o ++ w ++ k ∧
      o.map Char.toLower = ['o', 'r', 'd', 'e', 'r'] ∧ w ≠ [] ∧ w.all isWsC ∧
      (k.map Char.toLower = ['i', 'd'] ∨ k.map Char.toLower = ['n', 'u', 'm', 'b', 'e', 'r'] ∨
        k.map Char.toLower = ['#'])) ∧
      ∃ mid tail, r.take 100 = mid ++ v ++ tail ∧ bdry mid.reverse = true ∧
        bdry tail = true ∧ 6 ≤ v.length ∧ v.all Char.isDigit := by
  simp only [mOrdExplicit] at h
  split at h
  · next v0 md0 r0 hph =>
    split at h
    · next v1 md1 r1 hsc =>
      simp only [Option.some.injEq, Prod.mk.injEq] at h
      obtain ⟨hv, hmd, hr⟩ := h
      obtain ⟨p1, p2⟩ := mOrdPhrase_sound hph
      subst hr hmd hv
      obtain ⟨a, b, hab, hm⟩ := scanFirst_some hsc
      simp only [List.append_nil] at hm
      obtain ⟨q1, q2, q3, q4, q5, q6⟩ := mDigits6_sound hm
      subst q2
      refine ⟨p1, p2, a.reverse, r1, ?_, by simpa using q3, q4, q5, q6⟩
      rw [hab, q1]
      simp [List.append_assoc]
    · simp at h
  · simp at h

theorem mZipKw_sound {pre l v md r : List Char}
    (h : mZipKw pre l = some (v, md, r)) :
    l = md ++ r ∧ bdry r = true ∧ ∃ o mid, md = o ++ mid ++ v ∧
      o.map Char.toLower = ['z', 'i', 'p'] ∧ v.length = 5 ∧ v.all Char.isDigit := by
  simp only [mZipKw] at h
  split at h
  · next o r1 h1 =>
    obtain ⟨e1, e2⟩ := expectPfxCI_sound h1
    obtain ⟨s1, r2, hs12⟩ : ∃ a b, splitRun (fun c => isWsC c || c == ':') r1 = (a, b) :=
      ⟨_, _, rfl⟩
    have hs : s1 ++ r2 = r1 := by
      have := splitRun_append (fun c => isWsC c || c == ':') r1; rwa [hs12] at this
    simp only [hs12] at h
    split at h
    · next k rk hkw =>
      have hk : r2 = k ++ rk := by
        rcases hic : expectPfxCI ['c', 'o', 'd', 'e'] r2 with _ | ⟨k1, r1'⟩
        · simp only [hic, optOrElse_none] at hkw
          exact (expectPfxCI_sound hkw).1
        · simp only [hic, optOrElse_some, Option.some.injEq, Prod.mk.injEq] at hkw
          obtain ⟨y1, y2⟩ := hkw
          subst y1 y2
          exact (expectPfxCI_sound hic).1
      obtain ⟨s2, rs2, ht12⟩ : ∃ a b, splitRun (fun c => isWsC c || c == ':') rk = (a, b) :=
        ⟨_, _, rfl⟩
      have ht : s2 ++ rs2 = rk := by
        have := splitRun_append (fun c => isWsC c || c == ':') rk; rwa [ht12] at this
      simp only [ht12] at h
      split at h
      · next d r4 h2 =>
        obtain ⟨f1, f2, f3⟩ := takeN_sound h2
        split at h
        · next hb =>
          simp only [Option.some.injEq, Prod.mk.injEq] at h
          obtain ⟨hv, hmd, hr⟩ := h
          subst hr hmd hv
          refine ⟨?_, hb, o, s1 ++ k ++ s2, by simp [List.append_assoc], e2, f2, f3⟩
          subst e1 hs hk ht f1
          simp [List.append_assoc]
        · simp at h
      · simp at h
    · split at h
      · next d r4 h2 =>
        obtain ⟨f1, f2, f3⟩ := takeN_sound h2
        split at h
        · next hb =>
          simp only [Option.some.injEq, Prod.mk.injEq] at h
          obtain ⟨hv, hmd, hr⟩ := h
          subst hr hmd hv
          refine ⟨?_, hb, o, s1, rfl, e2, f2, f3⟩
          subst e1 hs f1
          simp [List.append_assoc]
        · simp at h
      · simp at h
  · simp at h

theorem mZipAddr_sound {pre l v md r : List Char}
    (h : mZipAddr pre l = some (v, md, r)) :
    l = md ++ r ∧ bdry pre = true ∧ bdry r = true ∧ ∃ st w, md = st ++ w ++ v ∧
      st.length = 2 ∧ st.all Char.isUpper ∧ w ≠ [] ∧ w.all isWsC ∧
      v.length = 5 ∧ v.all Char.isDigit := by
  simp only [mZipAddr] at h
  split at h
  · next hpre =>
    split at h
    · next st r1 h1 =>
      obtain ⟨e1, e2, e3⟩ := takeN_sound h1
      obtain ⟨w, r2, hw12⟩ : ∃ a b, splitRun isWsC r1 = (a, b) := ⟨_, _, rfl⟩
      have hw : w ++ r2 = r1 := by have := splitRun_append isWsC r1; rwa [hw12] at this
      have hwa : w.all isWsC = true := by have := splitRun_all isWsC r1; rwa [hw12] at this
      simp only [hw12] at h
      split at h
      · simp at h
      · next hwe =>
        split at h
        · next d r3 h2 =>
          obtain ⟨f1, f2, f3⟩ := takeN_sound h2
          split at h
          · next hb =>
            simp only [Option.some.injEq, Prod.mk.injEq] at h
            obtain ⟨hv, hmd, hr⟩ := h
            subst hr hmd hv
            refine ⟨?_, hpre, hb, st, w, rfl, e2, e3, by simpa using hwe, hwa, f2, f3⟩
            subst e1 hw f1
            simp [List.append_assoc]
          · simp at h
        · simp at h
    · simp at h
  · simp at h

theorem mZipStandalone_sound {pre l v md r : List Char}
    (h : mZipStandalone pre l = some (v, md, r)) :
    l = md ++ r ∧ v = md ∧ md.length = 5 ∧ md.all Char.isDigit ∧
      bdry pre = true ∧ bdry r = true ∧ windowHasOrder pre = false ∧
      (pre.take 10).contains '(' = false := by
  simp only [mZipStandalone] at h
  split at h
  · next hpre =>
    simp only [Bool.and_eq_true, Bool.not_eq_true'] at hpre
    split at h
    · next d r1 h1 =>
      obtain ⟨e1, e2, e3⟩ := takeN_sound h1
      split at h
      · next hb =>
        simp only [Option.some.injEq, Prod.mk.injEq] at h
        obtain ⟨hv, hmd, hr⟩ := h
        subst hr hmd hv
        exact ⟨e1, rfl, e2, e3, hpre.1.1, hb, hpre.1.2, hpre.2⟩
      · simp at h
    · simp at h
  · simp at h

end backendMain

/-! ## Qualification predicates

For each field and each version, the property "the text contains a substring
qualifying for the field under its extraction rule", stated as an explicit
decomposition of the text. -/

/-- Qualifying substring for the basic email rule. -/
def EmailQualB (t : List Char) : Prop :=
  ∃ pre a b post, t = pre ++ (a ++ '@' :: b) ++ post ∧ a ≠ [] ∧ b ≠ [] ∧
    a.all isEmailB ∧ b.all isEmailB

/-- Qualifying substring for the basic (and strict) phone rule. -/
def PhoneQualB (t : List Char) : Prop :=
  ∃ pre s post, t = pre ++ s ++ post ∧ BracketShape s

/-- Qualifying substring for the basic zip rule. -/
def ZipQualB (t : List Char) : Prop :=
  ∃ pre d post, t = pre ++ d ++ post ∧ d.length = 5 ∧ d.all Char.isDigit ∧
    bdry pre.reverse ∧ bdry post

/-- Qualifying substring for the basic order-id rule (one of its four
patterns). -/
def OrdQualB (t : List Char) : Prop :=
  (∃ pre o s g post, t = pre ++ (o ++ s ++ g) ++ post ∧
    o.map Char.toLower = ['o', 'r', 'd', 'e', 'r'] ∧ s.all isSepB ∧
    g ≠ [] ∧ g.all Char.isAlphanum) ∨
  (∃ pre o w k s g post, t = pre ++ (o ++ w ++ k ++ s ++ g) ++ post ∧
    o.map Char.toLower = ['o', 'r', 'd', 'e', 'r'] ∧ w ≠ [] ∧ w.all isWsC ∧
    (k.map Char.toLower = ['i', 'd'] ∨ k.map Char.toLower = ['n', 'u', 'm', 'b', 'e', 'r']) ∧
    s.all isSepB ∧ g ≠ [] ∧ g.all Char.isAlphanum) ∨
  (∃ pre g post, t = pre ++ ('#' :: g) ++ post ∧ g ≠ [] ∧ g.all Char.isAlphanum) ∨
  (∃ pre s post, t = pre ++ s ++ post ∧ bdry pre.reverse ∧ bdry post ∧ Ord4ShapeB s)

/-- Qualifying substring for the enhanced email rule (pattern plus
validation filter). -/
def EmailQualE (t : List Char) : Prop :=
  ∃ pre v post, t = pre ++ v ++ post ∧ EmailShapeE v ∧
    enhancedFieldExtractor.validEmail v

/-- Qualifying substring for the enhanced phone rule (one of its five
patterns, with the digit-count validation). -/
def PhoneQualE (t : List Char) : Prop :=
  ∃ pre v post, t = pre ++ v ++ post ∧
    (BracketShape v ∨
      (DashPhoneShape '-' v ∧ bdry pre.reverse ∧ bdry post) ∨
      (DashPhoneShape '.' v ∧ bdry pre.reverse ∧ bdry post) ∨
      PlusPhoneShape v ∨ LenientPhoneShape v) ∧
    10 ≤ enhancedFieldExtractor.digitCount v ∧ enhancedFieldExtractor.digitCount v ≤ 11

/-- Qualifying substring for the enhanced zip rule. -/
def ZipQualE (t : List Char) : Prop :=
  ∃ pre v post, t = pre ++ v ++ post ∧ bdry pre.reverse ∧ bdry post ∧
    ZipShapeE v ∧ enhancedFieldExtractor.validZip v

/-- Qualifying candidate value for the enhanced order-id rule (one of its six
patterns), with its validation. -/
def OrdQualE (t : List Char) : Prop :=
  ∃ g, enhancedFieldExtractor.validOrd g ∧
    ((∃ pre o s post, t = pre ++ (o ++ s ++ g) ++ post ∧
        o.map Char.toLower = ['o', 'r', 'd', 'e', 'r'] ∧ s.all isSepB ∧
        g ≠ [] ∧ g.all Char.isAlphanum) ∨
     (∃ pre o w k s post, t = pre ++ (o ++ w ++ k ++ s ++ g) ++ post ∧
        o.map Char.toLower = ['o', 'r', 'd', 'e', 'r'] ∧ w ≠ [] ∧ w.all isWsC ∧
        (k.map Char.toLower = ['i', 'd'] ∨
          k.map Char.toLower = ['n', 'u', 'm', 'b', 'e', 'r']) ∧
        s.all isSepB ∧ g ≠ [] ∧ g.all Char.isAlphanum) ∨
     (∃ pre post, t = pre ++ ('#' :: g) ++ post ∧ g ≠ [] ∧ g.all Char.isAlphanum) ∨
     (∃ pre post, t = pre ++ g ++ post ∧ bdry pre.reverse ∧ bdry post ∧ Ord4ShapeE g) ∨
     (∃ pre o s post, t = pre ++ (o ++ s ++ g) ++ post ∧ bdry pre.reverse ∧
        (o.map Char.toLower = ['o', 'r', 'd', 'e', 'r'] ∨
          o.map Char.toLower = ['o', 'r', 'd'] ∨ o.map Char.toLower = ['r', 'e', 'f']) ∧
        s.all isSepE ∧ g ≠ [] ∧ g.all Char.isAlphanum) ∨
     (∃ pre o s post, t = pre ++ (o ++ s ++ g) ++ post ∧ bdry pre.reverse ∧
        (o.map Char.toLower = ['i', 'n', 'v'] ∨
          o.map Char.toLower = ['t', 'x', 'n'] ∨ o.map Char.toLower = ['r', 'e', 'f']) ∧
        s.all isSepE ∧ g ≠ [] ∧ g.all Char.isAlphanum))

/-! ## Field-level soundness of the basic extractor -/

namespace fieldExtractor

theorem extractEmailL_spec (t : List Char) :
    extractEmailL t = NAl ∨
    (EmailQualB t ∧ extractEmailL t ≠ [] ∧
      ∃ pre post, t = pre ++ extractEmailL t ++ post) := by
  rw [extractEmailL]
  split
  · exact Or.inl rfl
  split
  · next v md rest hsc =>
    right
    obtain ⟨a, b, hab, hm⟩ := scanFirst_some hsc
    simp only [List.append_nil] at hm
    obtain ⟨c1, c2, aa, bb, c3, c4, c5, c6, c7⟩ := mEmail_sound hm
    subst c2
    refine ⟨⟨a.reverse, aa, bb, rest, ?_, c4, c5, c6, c7⟩, by simp [c3], a.reverse, rest, ?_⟩
    · rw [hab, c1, c3]
      simp [List.append_assoc]
    · rw [hab, c1]
      simp [List.append_assoc]
  · exact Or.inl rfl

theorem extractPhoneL_spec (t : List Char) :
    extractPhoneL t = NAl ∨
    (PhoneQualB t ∧ extractPhoneL t ≠ [] ∧
      ∃ pre post, t = pre ++ extractPhoneL t ++ post) := by
  rw [extractPhoneL]
  split
  · exact Or.inl rfl
  split
  · next v md rest hsc =>
    right
    obtain ⟨a, b, hab, hm⟩ := scanFirst_some hsc
    simp only [List.append_nil] at hm
    obtain ⟨c1, c2, c3⟩ := mBracketPhone_sound hm
    subst c2
    have hvne : v ≠ [] := by
      obtain ⟨x, w, y, z, hx, -⟩ := c3
      simp [hx]
    refine ⟨⟨a.reverse, v, rest, ?_, c3⟩, hvne, a.reverse, rest, ?_⟩
    · rw [hab, c1]
      simp [List.append_assoc]
    · rw [hab, c1]
      simp [List.append_assoc]
  · exact Or.inl rfl

theorem extractZipCodeL_spec (t : List Char) :
    extractZipCodeL t = NAl ∨
    (ZipQualB t ∧ extractZipCodeL t ≠ [] ∧
      ∃ pre post, t = pre ++ extractZipCodeL t ++ post) := by
  rw [extractZipCodeL]
  split
  · exact Or.inl rfl
  split
  · next v md rest hsc =>
    right
    obtain ⟨a, b, hab, hm⟩ := scanFirst_some hsc
    simp only [List.append_nil] at hm
    obtain ⟨c1, c2, c3, c4, c5, c6⟩ := mZip_sound hm
    subst c2
    refine ⟨⟨a.reverse, v, rest, ?_, c3, c4, by simpa using c5, c6⟩,
      by rintro rfl; simp at c3, a.reverse, rest, ?_⟩
    · rw [hab, c1]
      simp [List.append_assoc]
    · rw [hab, c1]
      simp [List.append_assoc]
  · exact Or.inl rfl

theorem extractOrderIdL_spec (t : List Char) :
    extractOrderIdL t = NAl ∨
    (OrdQualB t ∧ extractOrderIdL t ≠ [] ∧
      ∃ pre post, t = pre ++ extractOrderIdL t ++ post) := by
  rw [extractOrderIdL]
  split
  · exact Or.inl rfl
  split
  · next v md rest hsc =>
    right
    obtain ⟨a, b, hab, hm⟩ := scanFirst_some hsc
    simp only [List.append_nil] at hm
    obtain ⟨c1, o, s, c2, c3, c4, c5, c6⟩ := mOrd1_sound hm
    refine ⟨Or.inl ⟨a.reverse, o, s, v, rest, ?_, c3, c4, c5, c6⟩, c5, a.reverse ++ o ++ s, rest, ?_⟩
    · rw [hab, c1, c2]
      simp [List.append_assoc]
    · rw [hab, c1, c2]
      simp [List.append_assoc]
  · next hsc1 =>
    split
    · next v md rest hsc =>
      right
      obtain ⟨a, b, hab, hm⟩ := scanFirst_some hsc
      simp only [List.append_nil] at hm
      obtain ⟨c1, o, w, k, s, c2, c3, cw1, cw2, ck, c4, c5, c6⟩ := mOrd2_sound hm
      refine ⟨Or.inr (Or.inl ⟨a.reverse, o, w, k, s, v, rest, ?_, c3, cw1, cw2, ck, c4, c5, c6⟩),
        c5, a.reverse ++ o ++ w ++ k ++ s, rest, ?_⟩
      · rw [hab, c1, c2]
        simp [List.append_assoc]
      · rw [hab, c1, c2]
        simp [List.append_assoc]
    · split
      · next v md rest hsc =>
        right
        obtain ⟨a, b, hab, hm⟩ := scanFirst_some hsc
        simp only [List.append_nil] at hm
        obtain ⟨c1, c2, c3, c4⟩ := mOrd3_sound hm
        refine ⟨Or.inr (Or.inr (Or.inl ⟨a.reverse, v, rest, ?_, c3, c4⟩)), c3,
          a.reverse ++ ['#'], rest, ?_⟩
        · rw [hab, c1, c2]
          simp [List.append_assoc]
        · rw [hab, c1, c2]
          simp [List.append_assoc]
      · split
        · next v md rest hsc =>
          right
          obtain ⟨a, b, hab, hm⟩ := scanFirst_some hsc
          simp only [List.append_nil] at hm
          obtain ⟨c1, c2, c3, c4, c5⟩ := mOrd4_sound hm
          subst c2
          have hvne : v ≠ [] := by
            rcases c5 with ⟨u, d, hud, hu2, -, hd6, -⟩ | ⟨hd8, -⟩ | ⟨c0, d, hcd, -⟩
            · rintro rfl
              obtain ⟨h1, h2⟩ := List.append_eq_nil.mp hud.symm
              rw [h1] at hu2
              simp at hu2
            · rintro rfl
              simp at hd8
            · rintro rfl
              simp at hcd
          refine ⟨Or.inr (Or.inr (Or.inr ⟨a.reverse, v, rest, ?_, by simpa using c3, c4, c5⟩)),
            hvne, a.reverse, rest, ?_⟩
          · rw [hab, c1]
            simp [List.append_assoc]
          · rw [hab, c1]
            simp [List.append_assoc]
        · exact Or.inl rfl

end fieldExtractor

/-! ## Field-level soundness of the enhanced extractor -/

theorem orElse2_some {α : Type} {a : Option α} {b : Option α} {v : α}
    (h : (a <|> b) = some v) : a = some v ∨ b = some v := by
  cases a with
  | none => exact Or.inr h
  | some x => exact Or.inl h

namespace enhancedFieldExtractor

theorem tryPat_some {m : Mch} {t v : List Char}
    (h : extractPhoneL.tryPat m t = some v) :
    ∃ md rest, scanFirst m [] t = some (v, md, rest) ∧
      10 ≤ digitCount v ∧ digitCount v ≤ 11 := by
  rw [extractPhoneL.tryPat] at h
  split at h
  · next v0 md rest hsc =>
    split at h
    · next hdc =>
      simp only [Option.some.injEq] at h
      subst h
      simp only [Bool.and_eq_true, decide_eq_true_eq] at hdc
      exact ⟨md, rest, hsc, hdc.1, hdc.2⟩
    · simp at h
  · simp at h

theorem tryOrd_some {m : Mch} {t v : List Char}
    (h : extractOrderIdL.tryOrd m t = some v) :
    ∃ md rest, scanFirst m [] t = some (v, md, rest) ∧ validOrd v := by
  rw [extractOrderIdL.tryOrd] at h
  split at h
  · next v0 md rest hsc =>
    split at h
    · next hvo =>
      simp only [Option.some.injEq] at h
      subst h
      exact ⟨md, rest, hsc, hvo⟩
    · simp at h
  · simp at h

theorem extractEmailLE_spec (t : List Char) :
    extractEmailL t = NAl ∨
    (EmailQualE t ∧ extractEmailL t ≠ [] ∧
      ∃ pre post, t = pre ++ extractEmailL t ++ post) := by
  rw [extractEmailL]
  split
  · exact Or.inl rfl
  split
  · next v rest2 hfl =>
    right
    have hv : v ∈ (scanAll mEmail (t.length + 1) [] t).filter validEmail := by
      rw [hfl]
      exact List.mem_cons_self _ _
    have hmem := List.mem_filter.mp hv
    obtain ⟨a, b, md, rest, hab, hm⟩ :=
      scanAll_mem (fun pre i v' md' rest' hmm => (mEmailE_sound hmm).1) hmem.1
    simp only [List.append_nil] at hm
    obtain ⟨c1, c2, shape⟩ := mEmailE_sound hm
    subst c2
    have hvne : v ≠ [] := by
      obtain ⟨aa, d1, L, hveq, -⟩ := shape
      rw [hveq]
      simp
    refine ⟨⟨a.reverse, v, rest, ?_, shape, hmem.2⟩, hvne, a.reverse, rest, ?_⟩
    · rw [hab, c1]
      simp [List.append_assoc]
    · rw [hab, c1]
      simp [List.append_assoc]
  · exact Or.inl rfl

theorem extractZipCodeLE_spec (t : List Char) :
    extractZipCodeL t = NAl ∨
    (ZipQualE t ∧ extractZipCodeL t ≠ [] ∧
      ∃ pre post, t = pre ++ extractZipCodeL t ++ post) := by
  rw [extractZipCodeL]
  split
  · exact Or.inl rfl
  split
  · next v rest2 hfl =>
    right
    have hv : v ∈ (scanAll mZip (t.length + 1) [] t).filter validZip := by
      rw [hfl]
      exact List.mem_cons_self _ _
    have hmem := List.mem_filter.mp hv
    obtain ⟨a, b, md, rest, hab, hm⟩ :=
      scanAll_mem (fun pre i v' md' rest' hmm => (mZipE_sound hmm).1) hmem.1
    simp only [List.append_nil] at hm
    obtain ⟨c1, c2, c3, c4, c5⟩ := mZipE_sound hm
    subst c2
    have hvne : v ≠ [] := by
      rcases c5 with ⟨hlen, -⟩ | ⟨d, e, hveq, -⟩
      · rintro rfl
        simp at hlen
      · rw [hveq]
        simp
    refine ⟨⟨a.reverse, v, rest, ?_, by simpa using c3, c4, c5, hmem.2⟩, hvne,
      a.reverse, rest, ?_⟩
    · rw [hab, c1]
      simp [List.append_assoc]
    · rw [hab, c1]
      simp [List.append_assoc]
  · exact Or.inl rfl

theorem extractPhoneLE_spec (t : List Char) :
    extractPhoneL t = NAl ∨
    (PhoneQualE t ∧ extractPhoneL t ≠ [] ∧
      ∃ pre post, t = pre ++ extractPhoneL t ++ post) := by
  rw [extractPhoneL]
  split
  · exact Or.inl rfl
  rcases hch : extractPhoneL.tryPat mBracketPhone t <|> extractPhoneL.tryPat mPh2 t <|>
      extractPhoneL.tryPat mPh3 t <|> extractPhoneL.tryPat mPh4 t <|>
      extractPhoneL.tryPat mPh5 t with _ | v
  · exact Or.inl rfl
  right
  simp only [Option.getD_some]
  rcases orElse2_some hch with h1 | hch2
  · obtain ⟨md, rest, hsc, hd1, hd2⟩ := tryPat_some h1
    obtain ⟨a, b, hab, hm⟩ := scanFirst_some hsc
    simp only [List.append_nil] at hm
    obtain ⟨c1, c2, c3⟩ := mBracketPhone_sound hm
    subst c2
    have hvne : v ≠ [] := by
      obtain ⟨x, w, y, z, hx, -⟩ := c3
      simp [hx]
    refine ⟨⟨a.reverse, v, rest, ?_, Or.inl c3, hd1, hd2⟩, hvne, a.reverse, rest, ?_⟩
    · rw [hab, c1]
      simp [List.append_assoc]
    · rw [hab, c1]
      simp [List.append_assoc]
  rcases orElse2_some hch2 with h1 | hch3
  · obtain ⟨md, rest, hsc, hd1, hd2⟩ := tryPat_some h1
    obtain ⟨a, b, hab, hm⟩ := scanFirst_some hsc
    simp only [List.append_nil] at hm
    obtain ⟨c1, c2, c3, c4, c5⟩ := mPh2_sound hm
    subst c2
    have hvne : v ≠ [] := by
      obtain ⟨x, y, z, hx, -⟩ := c5
      rw [hx]
      simp
    refine ⟨⟨a.reverse, v, rest, ?_, Or.inr (Or.inl ⟨c5, by simpa using c3, c4⟩), hd1, hd2⟩,
      hvne, a.reverse, rest, ?_⟩
    · rw [hab, c1]
      simp [List.append_assoc]
    · rw [hab, c1]
      simp [List.append_assoc]
  rcases orElse2_some hch3 with h1 | hch4
  · obtain ⟨md, rest, hsc, hd1, hd2⟩ := tryPat_some h1
    obtain ⟨a, b, hab, hm⟩ := scanFirst_some hsc
    simp only [List.append_nil] at hm
    obtain ⟨c1, c2, c3, c4, c5⟩ := mPh3_sound hm
    subst c2
    have hvne : v ≠ [] := by
      obtain ⟨x, y, z, hx, -⟩ := c5
      rw [hx]
      simp
    refine ⟨⟨a.reverse, v, rest, ?_, Or.inr (Or.inr (Or.inl ⟨c5, by simpa using c3, c4⟩)),
      hd1, hd2⟩, hvne, a.reverse, rest, ?_⟩
    · rw [hab, c1]
      simp [List.append_assoc]
    · rw [hab, c1]
      simp [List.append_assoc]
  rcases orElse2_some hch4 with h1 | h1
  · obtain ⟨md, rest, hsc, hd1, hd2⟩ := tryPat_some h1
    obtain ⟨a, b, hab, hm⟩ := scanFirst_some hsc
    simp only [List.append_nil] at hm
    obtain ⟨c1, c2, c3⟩ := mPh4_sound hm
    subst c2
    have hvne : v ≠ [] := by
      obtain ⟨w1, x, w2, y, w3, z, hx, -⟩ := c3
      simp [hx]
    refine ⟨⟨a.reverse, v, rest, ?_, Or.inr (Or.inr (Or.inr (Or.inl c3))), hd1, hd2⟩,
      hvne, a.reverse, rest, ?_⟩
    · rw [hab, c1]
      simp [List.append_assoc]
    · rw [hab, c1]
      simp [List.append_assoc]
  · obtain ⟨md, rest, hsc, hd1, hd2⟩ := tryPat_some h1
    obtain ⟨a, b, hab, hm⟩ := scanFirst_some hsc
    simp only [List.append_nil] at hm
    obtain ⟨c1, c2, c3⟩ := mPh5_sound hm
    subst c2
    have hvne : v ≠ [] := by
      obtain ⟨lead, inner, dgt, hx, -⟩ := c3
      rw [hx]
      simp
    refine ⟨⟨a.reverse, v, rest, ?_, Or.inr (Or.inr (Or.inr (Or.inr c3))), hd1, hd2⟩,
      hvne, a.reverse, rest, ?_⟩
    · rw [hab, c1]
      simp [List.append_assoc]
    · rw [hab, c1]
      simp [List.append_assoc]

theorem extractOrderIdLE_spec (t : List Char) :
    extractOrderIdL t = NAl ∨
    (OrdQualE t ∧ extractOrderIdL t ≠ [] ∧
      ∃ pre post, t = pre ++ extractOrderIdL t ++ post) := by
  rw [extractOrderIdL]
  split
  · exact Or.inl rfl
  rcases hch : extractOrderIdL.tryOrd mOrd1 t <|> extractOrderIdL.tryOrd mOrd2 t <|>
      extractOrderIdL.tryOrd mOrd3 t <|> extractOrderIdL.tryOrd mOrd4 t <|>
      extractOrderIdL.tryOrd mOrd5 t <|> extractOrderIdL.tryOrd mOrd6 t with _ | v
  · exact Or.inl rfl
  right
  simp only [Option.getD_some]
  rcases orElse2_some hch with h1 | hch2
  · obtain ⟨md, rest, hsc, hvo⟩ := tryOrd_some h1
    obtain ⟨a, b, hab, hm⟩ := scanFirst_some hsc
    simp only [List.append_nil] at hm
    obtain ⟨c1, o, s, c2, c3, c4, c5, c6⟩ := mOrd1_sound hm
    refine ⟨⟨v, hvo, Or.inl ⟨a.reverse, o, s, rest, ?_, c3, c4, c5, c6⟩⟩, c5,
      a.reverse ++ o ++ s, rest, ?_⟩
    · rw [hab, c1, c2]
      simp [List.append_assoc]
    · rw [hab, c1, c2]
      simp [List.append_assoc]
  rcases orElse2_some hch2 with h1 | hch3
  · obtain ⟨md, rest, hsc, hvo⟩ := tryOrd_some h1
    obtain ⟨a, b, hab, hm⟩ := scanFirst_some hsc
    simp only [List.append_nil] at hm
    obtain ⟨c1, o, w, k, s, c2, c3, cw1, cw2, ck, c4, c5, c6⟩ := mOrd2_sound hm
    refine ⟨⟨v, hvo, Or.inr (Or.inl ⟨a.reverse, o, w, k, s, rest, ?_, c3, cw1, cw2, ck, c4,
      c5, c6⟩)⟩, c5, a.reverse ++ o ++ w ++ k ++ s, rest, ?_⟩
    · rw [hab, c1, c2]
      simp [List.append_assoc]
    · rw [hab, c1, c2]
      simp [List.append_assoc]
  rcases orElse2_some hch3 with h1 | hch4
  · obtain ⟨md, rest, hsc, hvo⟩ := tryOrd_some h1
    obtain ⟨a, b, hab, hm⟩ := scanFirst_some hsc
    simp only [List.append_nil] at hm
    obtain ⟨c1, c2, c3, c4⟩ := mOrd3_sound hm
    refine ⟨⟨v, hvo, Or.inr (Or.inr (Or.inl ⟨a.reverse, rest, ?_, c3, c4⟩))⟩, c3,
      a.reverse ++ ['#'], rest, ?_⟩
    · rw [hab, c1, c2]
      simp [List.append_assoc]
    · rw [hab, c1, c2]
      simp [List.append_assoc]
  rcases orElse2_some hch4 with h1 | hch5
  · obtain ⟨md, rest, hsc, hvo⟩ := tryOrd_some h1
    obtain ⟨a, b, hab, hm⟩ := scanFirst_some hsc
    simp only [List.append_nil] at hm
    obtain ⟨c1, c2, c3, c4, c5⟩ := mOrd4E_sound hm
    subst c2
    have hvne : v ≠ [] := by
      rcases c5 with ⟨u, d, hud, hu2, -⟩ | ⟨d, u, hdu, hd6, -⟩ | ⟨c0, d, hcd, -⟩
      · rintro rfl
        obtain ⟨h1', h2'⟩ := List.append_eq_nil.mp hud.symm
        rw [h1'] at hu2
        simp at hu2
      · rintro rfl
        obtain ⟨h1', h2'⟩ := List.append_eq_nil.mp hdu.symm
        rw [h1'] at hd6
        simp at hd6
      · rintro rfl
        simp at hcd
    refine ⟨⟨v, hvo, Or.inr (Or.inr (Or.inr (Or.inl ⟨a.reverse, rest, ?_,
      by simpa using c3, c4, c5⟩)))⟩, hvne, a.reverse, rest, ?_⟩
    · rw [hab, c1]
      simp [List.append_assoc]
    · rw [hab, c1]
      simp [List.append_assoc]
  rcases orElse2_some hch5 with h1 | h1
  · obtain ⟨md, rest, hsc, hvo⟩ := tryOrd_some h1
    obtain ⟨a, b, hab, hm⟩ := scanFirst_some hsc
    simp only [List.append_nil] at hm
    obtain ⟨c1, cb, o, s, c2, c3, c4, c5, c6⟩ := mOrd5_sound hm
    refine ⟨⟨v, hvo, Or.inr (Or.inr (Or.inr (Or.inr (Or.inl ⟨a.reverse, o, s, rest, ?_,
      by simpa using cb, c3, c4, c5, c6⟩))))⟩, c5, a.reverse ++ o ++ s, rest, ?_⟩
    · rw [hab, c1, c2]
      simp [List.append_assoc]
    · rw [hab, c1, c2]
      simp [List.append_assoc]
  · obtain ⟨md, rest, hsc, hvo⟩ := tryOrd_some h1
    obtain ⟨a, b, hab, hm⟩ := scanFirst_some hsc
    simp only [List.append_nil] at hm
    obtain ⟨c1, cb, o, s, c2, c3, c4, c5, c6⟩ := mOrd6_sound hm
    refine ⟨⟨v, hvo, Or.inr (Or.inr (Or.inr (Or.inr (Or.inr ⟨a.reverse, o, s, rest, ?_,
      by simpa using cb, c3, c4, c5, c6⟩))))⟩, c5, a.reverse ++ o ++ s, rest, ?_⟩
    · rw [hab, c1, c2]
      simp [List.append_assoc]
    · rw [hab, c1, c2]
      simp [List.append_assoc]

end enhancedFieldExtractor

/-! ## Support lemmas for the claims -/

theorem mk_NA : (⟨NAl⟩ : String) = "NA" := rfl

theorem mk_ne_empty {v : List Char} (h : v ≠ []) : (⟨v⟩ : String) ≠ "" :=
  fun he => h (congrArg String.data he)

theorem Ord4ShapeB_len {s : List Char} (h : Ord4ShapeB s) : 8 ≤ s.length := by
  rcases h with ⟨u, d, hs, hu2, -, hd6, -⟩ | ⟨hd8, -⟩ | ⟨c, d, hs, -, hd7, -⟩
  · rw [hs]
    simp only [List.length_append, hu2]
    omega
  · exact hd8
  · rw [hs]
    simp only [List.length_cons]
    omega

theorem Ord4ShapeB_head {s : List Char} (h : Ord4ShapeB s) :
    ∃ c t', s = c :: t' ∧ (c.isUpper = true ∨ c.isDigit = true) := by
  rcases h with ⟨u, d, hs, hu2, hua, -, -⟩ | ⟨hd8, hda⟩ | ⟨c, d, hs, hcu, -, -⟩
  · cases u with
    | nil => simp at hu2
    | cons u1 u' =>
      refine ⟨u1, u' ++ d, by simp [hs], Or.inl ?_⟩
      simp only [List.all_cons, Bool.and_eq_true] at hua
      exact hua.1
  · cases s with
    | nil => simp at hd8
    | cons c t' =>
      refine ⟨c, t', rfl, Or.inr ?_⟩
      simp only [List.all_cons, Bool.and_eq_true] at hda
      exact hda.1
  · exact ⟨c, d, hs, Or.inl hcu⟩

/-- Value-level soundness of the basic phone extractor: a non-NA result is a
bracketed-shaped substring of the text. -/
theorem fieldExtractor.extractPhoneL_shape (t : List Char) :
    fieldExtractor.extractPhoneL t = NAl ∨
    (BracketShape (fieldExtractor.extractPhoneL t) ∧
      ∃ pre post, t = pre ++ fieldExtractor.extractPhoneL t ++ post) := by
  rw [fieldExtractor.extractPhoneL]
  split
  · exact Or.inl rfl
  split
  · next v md rest hsc =>
    right
    obtain ⟨a, b, hab, hm⟩ := scanFirst_some hsc
    simp only [List.append_nil] at hm
    obtain ⟨c1, c2, c3⟩ := mBracketPhone_sound hm
    subst c2
    refine ⟨c3, a.reverse, rest, ?_⟩
    rw [hab, c1]
    simp [List.append_assoc]
  · exact Or.inl rfl

/-- Value-level soundness of the basic order-id extractor on texts with no
case-insensitive occurrence of "order" and no hash sign: patterns 1 to 3
cannot fire, so a non-NA result is a standalone pattern-4 token. -/
theorem fieldExtractor.extractOrderIdL_no_order_hash {t : List Char}
    (ho : containsTok ['o', 'r', 'd', 'e', 'r'] t = false) (hh : '#' ∉ t) :
    fieldExtractor.extractOrderIdL t = NAl ∨
    (Ord4ShapeB (fieldExtractor.extractOrderIdL t) ∧
      8 ≤ (fieldExtractor.extractOrderIdL t).length ∧
      ∃ pre post, t = pre ++ fieldExtractor.extractOrderIdL t ++ post) := by
  rw [fieldExtractor.extractOrderIdL]
  split
  · exact Or.inl rfl
  split
  · next v md rest hsc =>
    exfalso
    obtain ⟨a, b, hab, hm⟩ := scanFirst_some hsc
    simp only [List.append_nil] at hm
    obtain ⟨c1, o, s, c2, c3, -⟩ := mOrd1_sound hm
    have : containsTok ['o', 'r', 'd', 'e', 'r'] t = true := by
      refine containsTok_of_decomp (u := a.reverse) (v := s ++ v ++ rest) ?_ c3
      rw [hab, c1, c2]
      simp [List.append_assoc]
    rw [this] at ho
    exact absurd ho (by simp)
  split
  · next v md rest hsc =>
    exfalso
    obtain ⟨a, b, hab, hm⟩ := scanFirst_some hsc
    simp only [List.append_nil] at hm
    obtain ⟨c1, o, w, k, s, c2, c3, -⟩ := mOrd2_sound hm
    have : containsTok ['o', 'r', 'd', 'e', 'r'] t = true := by
      refine containsTok_of_decomp (u := a.reverse) (v := w ++ k ++ s ++ v ++ rest) ?_ c3
      rw [hab, c1, c2]
      simp [List.append_assoc]
    rw [this] at ho
    exact absurd ho (by simp)
  split
  · next v md rest hsc =>
    exfalso
    obtain ⟨a, b, hab, hm⟩ := scanFirst_some hsc
    simp only [List.append_nil] at hm
    obtain ⟨c1, c2, -⟩ := mOrd3_sound hm
    apply hh
    rw [hab, c1, c2]
    simp
  split
  · next v md rest hsc =>
    right
    obtain ⟨a, b, hab, hm⟩ := scanFirst_some hsc
    simp only [List.append_nil] at hm
    obtain ⟨c1, c2, c3, c4, c5⟩ := fieldExtractor.mOrd4_sound hm
    subst c2
    refine ⟨c5, Ord4ShapeB_len c5, a.reverse, rest, ?_⟩
    rw [hab, c1]
    simp [List.append_assoc]
  · exact Or.inl rfl

/-! ## The claims -/

/-- Claim C2: the spec asserts that on the text "Customer called about order
1012809669. Email is john@example.com. Phone (752) 693-4642. Zip code
78202." the extractor returns email "john@example.com", a normalized form of
the phone, zip "78202" and orderId "1012809669".  Evaluating both checked-in
extractors at that exact input shows the divergence: the basic extractor
returns the email with a trailing period (its loose pattern swallows the
sentence dot), and the enhanced extractor returns orderId "NA" (its
validation rejects any purely numeric ten-digit candidate as phone-like),
contradicting the claimed orderId "1012809669". -/
theorem claim2_example_eval :
    fieldExtractor.extractAllFields
        "Customer called about order 1012809669. Email is john@example.com. Phone (752) 693-4642. Zip code 78202." =
      ⟨"john@example.com.", "(752) 693-4642", "78202", "1012809669"⟩ ∧
    enhancedFieldExtractor.extractAllFields
        "Customer called about order 1012809669. Email is john@example.com. Phone (752) 693-4642. Zip code 78202." =
      ⟨"john@example.com", "(752) 693-4642", "78202", "NA"⟩ ∧
    ("john@example.com." : String) ≠ "john@example.com" ∧
    ("NA" : String) ≠ "1012809669" := by
  refine ⟨by decide, by decide, by decide, by decide⟩

/-- Claim C3: for every input text and each of the four fields, in both the
basic and the enhanced extractor, either the text contains a substring
qualifying for the field under that extractor's rule, or the field resolves
to the sentinel "NA" (equivalently: no qualifying substring implies "NA");
and the empty string yields all-"NA" in both. -/
theorem claim3_no_qualifying_substring_gives_NA :
    ∀ t : String,
      (EmailQualB t.data ∨ (fieldExtractor.extractAllFields t).email = "NA") ∧
      (PhoneQualB t.data ∨ (fieldExtractor.extractAllFields t).phone = "NA") ∧
      (ZipQualB t.data ∨ (fieldExtractor.extractAllFields t).zipCode = "NA") ∧
      (OrdQualB t.data ∨ (fieldExtractor.extractAllFields t).orderId = "NA") ∧
      (EmailQualE t.data ∨ (enhancedFieldExtractor.extractAllFields t).email = "NA") ∧
      (PhoneQualE t.data ∨ (enhancedFieldExtractor.extractAllFields t).phone = "NA") ∧
      (ZipQualE t.data ∨ (enhancedFieldExtractor.extractAllFields t).zipCode = "NA") ∧
      (OrdQualE t.data ∨ (enhancedFieldExtractor.extractAllFields t).orderId = "NA") ∧
      fieldExtractor.extractAllFields "" = ⟨"NA", "NA", "NA", "NA"⟩ ∧
      enhancedFieldExtractor.extractAllFields "" = ⟨"NA", "NA", "NA", "NA"⟩ := by
  intro t
  refine ⟨?_, ?_, ?_, ?_, ?_, ?_, ?_, ?_, by decide, by decide⟩
  · rcases fieldExtractor.extractEmailL_spec t.data with h | ⟨hq, -, -⟩
    · right
      show (⟨fieldExtractor.extractEmailL t.data⟩ : String) = "NA"
      rw [h]
      exact mk_NA
    · exact Or.inl hq
  · rcases fieldExtractor.extractPhoneL_spec t.data with h | ⟨hq, -, -⟩
    · right
      show (⟨fieldExtractor.extractPhoneL t.data⟩ : String) = "NA"
      rw [h]
      exact mk_NA
    · exact Or.inl hq
  · rcases fieldExtractor.extractZipCodeL_spec t.data with h | ⟨hq, -, -⟩
    · right
      show (⟨fieldExtractor.extractZipCodeL t.data⟩ : String) = "NA"
      rw [h]
      exact mk_NA
    · exact Or.inl hq
  · rcases fieldExtractor.extractOrderIdL_spec t.data with h | ⟨hq, -, -⟩
    · right
      show (⟨fieldExtractor.extractOrderIdL t.data⟩ : String) = "NA"
      rw [h]
      exact mk_NA
    · exact Or.inl hq
  · rcases enhancedFieldExtractor.extractEmailLE_spec t.data with h | ⟨hq, -, -⟩
    · right
      show (⟨enhancedFieldExtractor.extractEmailL t.data⟩ : String) = "NA"
      rw [h]
      exact mk_NA
    · exact Or.inl hq
  · rcases enhancedFieldExtractor.extractPhoneLE_spec t.data with h | ⟨hq, -, -⟩
    · right
      show (⟨enhancedFieldExtractor.extractPhoneL t.data⟩ : String) = "NA"
      rw [h]
      exact mk_NA
    · exact Or.inl hq
  · rcases enhancedFieldExtractor.extractZipCodeLE_spec t.data with h | ⟨hq, -, -⟩
    · right
      show (⟨enhancedFieldExtractor.extractZipCodeL t.data⟩ : String) = "NA"
      rw [h]
      exact mk_NA
    · exact Or.inl hq
  · rcases enhancedFieldExtractor.extractOrderIdLE_spec t.data with h | ⟨hq, -, -⟩
    · right
      show (⟨enhancedFieldExtractor.extractOrderIdL t.data⟩ : String) = "NA"
      rw [h]
      exact mk_NA
    · exact Or.inl hq

/-- Claim C7: the embedded extractors are total functions on strings (they
are plain Lean functions, mirroring the straight-line regex logic of the
source, which has no throwing operation), and the only failure mode is the
sentinel "NA": every field of the result is a defined string that is either
"NA" or a nonempty qualifying match. -/
theorem claim7_total_NA_only_failure :
    ∀ t : String,
      ((fieldExtractor.extractAllFields t).email = "NA" ∨
        ((fieldExtractor.extractAllFields t).email ≠ "" ∧ EmailQualB t.data)) ∧
      ((fieldExtractor.extractAllFields t).phone = "NA" ∨
        ((fieldExtractor.extractAllFields t).phone ≠ "" ∧ PhoneQualB t.data)) ∧
      ((fieldExtractor.extractAllFields t).zipCode = "NA" ∨
        ((fieldExtractor.extractAllFields t).zipCode ≠ "" ∧ ZipQualB t.data)) ∧
      ((fieldExtractor.extractAllFields t).orderId = "NA" ∨
        ((fieldExtractor.extractAllFields t).orderId ≠ "" ∧ OrdQualB t.data)) ∧
      ((enhancedFieldExtractor.extractAllFields t).email = "NA" ∨
        ((enhancedFieldExtractor.extractAllFields t).email ≠ "" ∧ EmailQualE t.data)) ∧
      ((enhancedFieldExtractor.extractAllFields t).phone = "NA" ∨
        ((enhancedFieldExtractor.extractAllFields t).phone ≠ "" ∧ PhoneQualE t.data)) ∧
      ((enhancedFieldExtractor.extractAllFields t).zipCode = "NA" ∨
        ((enhancedFieldExtractor.extractAllFields t).zipCode ≠ "" ∧ ZipQualE t.data)) ∧
      ((enhancedFieldExtractor.extractAllFields t).orderId = "NA" ∨
        ((enhancedFieldExtractor.extractAllFields t).orderId ≠ "" ∧ OrdQualE t.data)) := by
  intro t
  refine ⟨?_, ?_, ?_, ?_, ?_, ?_, ?_, ?_⟩
  · rcases fieldExtractor.extractEmailL_spec t.data with h | ⟨hq, hne, -⟩
    · left
      show (⟨fieldExtractor.extractEmailL t.data⟩ : String) = "NA"
      rw [h]
      exact mk_NA
    · exact Or.inr ⟨mk_ne_empty hne, hq⟩
  · rcases fieldExtractor.extractPhoneL_spec t.data with h | ⟨hq, hne, -⟩
    · left
      show (⟨fieldExtractor.extractPhoneL t.data⟩ : String) = "NA"
      rw [h]
      exact mk_NA
    · exact Or.inr ⟨mk_ne_empty hne, hq⟩
  · rcases fieldExtractor.extractZipCodeL_spec t.data with h | ⟨hq, hne, -⟩
    · left
      show (⟨fieldExtractor.extractZipCodeL t.data⟩ : String) = "NA"
      rw [h]
      exact mk_NA
    · exact Or.inr ⟨mk_ne_empty hne, hq⟩
  · rcases fieldExtractor.extractOrderIdL_spec t.data with h | ⟨hq, hne, -⟩
    · left
      show (⟨fieldExtractor.extractOrderIdL t.data⟩ : String) = "NA"
      rw [h]
      exact mk_NA
    · exact Or.inr ⟨mk_ne_empty hne, hq⟩
  · rcases enhancedFieldExtractor.extractEmailLE_spec t.data with h | ⟨hq, hne, -⟩
    · left
      show (⟨enhancedFieldExtractor.extractEmailL t.data⟩ : String) = "NA"
      rw [h]
      exact mk_NA
    · exact Or.inr ⟨mk_ne_empty hne, hq⟩
  · rcases enhancedFieldExtractor.extractPhoneLE_spec t.data with h | ⟨hq, hne, -⟩
    · left
      show (⟨enhancedFieldExtractor.extractPhoneL t.data⟩ : String) = "NA"
      rw [h]
      exact mk_NA
    · exact Or.inr ⟨mk_ne_empty hne, hq⟩
  · rcases enhancedFieldExtractor.extractZipCodeLE_spec t.data with h | ⟨hq, hne, -⟩
    · left
      show (⟨enhancedFieldExtractor.extractZipCodeL t.data⟩ : String) = "NA"
      rw [h]
      exact mk_NA
    · exact Or.inr ⟨mk_ne_empty hne, hq⟩
  · rcases enhancedFieldExtractor.extractOrderIdLE_spec t.data with h | ⟨hq, hne, -⟩
    · left
      show (⟨enhancedFieldExtractor.extractOrderIdL t.data⟩ : String) = "NA"
      rw [h]
      exact mk_NA
    · exact Or.inr ⟨mk_ne_empty hne, hq⟩

/-- Claim C8: extraction is deterministic and idempotent — two calls on the
same text yield identical field records, and the four field values of the
metadata-carrying variant do not depend on its hidden inputs (the clock value
`processedAt` and the file name), only on the text. -/
theorem claim8_deterministic_idempotent :
    ∀ (t : String) (f1 f2 : Option String) (p1 p2 : String),
      enhancedFieldExtractor.extractAllFields t = enhancedFieldExtractor.extractAllFields t ∧
      enhancedFieldExtractor.fieldsOf
          (enhancedFieldExtractor.extractAllFieldsWithMetadata t f1 p1) =
        enhancedFieldExtractor.fieldsOf
          (enhancedFieldExtractor.extractAllFieldsWithMetadata t f2 p2) ∧
      enhancedFieldExtractor.fieldsOf
          (enhancedFieldExtractor.extractAllFieldsWithMetadata t f1 p1) =
        enhancedFieldExtractor.extractAllFields t :=
  fun _ _ _ _ _ => ⟨rfl, rfl, rfl⟩

/-- Claim C9: the duplicated versions of the extraction rules diverge — on
the text "order 12" the basic extractor returns orderId "12" while the
enhanced extractor (whose validation requires at least three characters)
returns "NA", so the two extractors are not extensionally equal. -/
theorem claim9_basic_enhanced_diverge :
    ∃ t : String,
      fieldExtractor.extractAllFields t ≠ enhancedFieldExtractor.extractAllFields t :=
  ⟨"order 12", by decide⟩

/-- Claim C10: every non-"NA" field value returned by either extractor
occurs as a contiguous substring of the input text — values are matched
literals, never synthesized. -/
theorem claim10_values_are_substrings :
    ∀ t : String,
      ((fieldExtractor.extractAllFields t).email = "NA" ∨
        ∃ pre post, t.data = pre ++ (fieldExtractor.extractAllFields t).email.data ++ post) ∧
      ((fieldExtractor.extractAllFields t).phone = "NA" ∨
        ∃ pre post, t.data = pre ++ (fieldExtractor.extractAllFields t).phone.data ++ post) ∧
      ((fieldExtractor.extractAllFields t).zipCode = "NA" ∨
        ∃ pre post, t.data = pre ++ (fieldExtractor.extractAllFields t).zipCode.data ++ post) ∧
      ((fieldExtractor.extractAllFields t).orderId = "NA" ∨
        ∃ pre post, t.data = pre ++ (fieldExtractor.extractAllFields t).orderId.data ++ post) ∧
      ((enhancedFieldExtractor.extractAllFields t).email = "NA" ∨
        ∃ pre post, t.data = pre ++ (enhancedFieldExtractor.extractAllFields t).email.data ++ post) ∧
      ((enhancedFieldExtractor.extractAllFields t).phone = "NA" ∨
        ∃ pre post, t.data = pre ++ (enhancedFieldExtractor.extractAllFields t).phone.data ++ post) ∧
      ((enhancedFieldExtractor.extractAllFields t).zipCode = "NA" ∨
        ∃ pre post, t.data = pre ++ (enhancedFieldExtractor.extractAllFields t).zipCode.data ++ post) ∧
      ((enhancedFieldExtractor.extractAllFields t).orderId = "NA" ∨
        ∃ pre post, t.data = pre ++ (enhancedFieldExtractor.extractAllFields t).orderId.data ++ post) := by
  intro t
  refine ⟨?_, ?_, ?_, ?_, ?_, ?_, ?_, ?_⟩
  · rcases fieldExtractor.extractEmailL_spec t.data with h | ⟨-, -, hd⟩
    · left
      show (⟨fieldExtractor.extractEmailL t.data⟩ : String) = "NA"
      rw [h]
      exact mk_NA
    · exact Or.inr hd
  · rcases fieldExtractor.extractPhoneL_spec t.data with h | ⟨-, -, hd⟩
    · left
      show (⟨fieldExtractor.extractPhoneL t.data⟩ : String) = "NA"
      rw [h]
      exact mk_NA
    · exact Or.inr hd
  · rcases fieldExtractor.extractZipCodeL_spec t.data with h | ⟨-, -, hd⟩
    · left
      show (⟨fieldExtractor.extractZipCodeL t.data⟩ : String) = "NA"
      rw [h]
      exact mk_NA
    · exact Or.inr hd
  · rcases fieldExtractor.extractOrderIdL_spec t.data with h | ⟨-, -, hd⟩
    · left
      show (⟨fieldExtractor.extractOrderIdL t.data⟩ : String) = "NA"
      rw [h]
      exact mk_NA
    · exact Or.inr hd
  · rcases enhancedFieldExtractor.extractEmailLE_spec t.data with h | ⟨-, -, hd⟩
    · left
      show (⟨enhancedFieldExtractor.extractEmailL t.data⟩ : String) = "NA"
      rw [h]
      exact mk_NA
    · exact Or.inr hd
  · rcases enhancedFieldExtractor.extractPhoneLE_spec t.data with h | ⟨-, -, hd⟩
    · left
      show (⟨enhancedFieldExtractor.extractPhoneL t.data⟩ : String) = "NA"
      rw [h]
      exact mk_NA
    · exact Or.inr hd
  · rcases enhancedFieldExtractor.extractZipCodeLE_spec t.data with h | ⟨-, -, hd⟩
    · left
      show (⟨enhancedFieldExtractor.extractZipCodeL t.data⟩ : String) = "NA"
      rw [h]
      exact mk_NA
    · exact Or.inr hd
  · rcases enhancedFieldExtractor.extractOrderIdLE_spec t.data with h | ⟨-, -, hd⟩
    · left
      show (⟨enhancedFieldExtractor.extractOrderIdL t.data⟩ : String) = "NA"
      rw [h]
      exact mk_NA
    · exact Or.inr hd

/-- Claim C1 (spec-modelled, `backend/main.py` is not among the checked-in
sources): the backend phone extractor accepts only tokens in the bracketed
"(XXX) XXX-XXXX" format, and before accepting a candidate it inspects the
window of at most 50 preceding characters, discarding the candidate when the
window contains "order" (case-insensitively) — hence a phone-shaped token
immediately preceded by "order id" text is never the accepted occurrence:
any non-"NA" result comes from a bracket-shaped occurrence whose preceding
window is free of "order", returned in normalized XXX-XXX-XXXX form. -/
theorem claim1_phone_bracket_only_order_window :
    ∀ t : String, backendMain.extract_phone t ≠ "NA" →
      ∃ pre s post, t.data = pre ++ s ++ post ∧ BracketShape s ∧
        backendMain.windowHasOrder pre.reverse = false ∧
        backendMain.extract_phone t =
          ⟨(s.filter Char.isDigit).take 3 ++ '-' ::
            ((s.filter Char.isDigit).drop 3).take 3 ++ '-' ::
            ((s.filter Char.isDigit).drop 6)⟩ := by
  intro t h
  rw [backendMain.extract_phone] at h ⊢
  rcases hsc : scanFirst backendMain.mPhone [] t.data with _ | ⟨v, md, rest⟩
  · rw [hsc] at h
    exact absurd rfl h
  · obtain ⟨a, b, hab, hm⟩ := scanFirst_some hsc
    simp only [List.append_nil] at hm
    obtain ⟨c1, c2, c3, c4⟩ := backendMain.mPhone_sound hm
    refine ⟨a.reverse, md, rest, ?_, c2, by simpa using c3, ?_⟩
    · rw [hab, c1]
      simp [List.append_assoc]
    · show (⟨v⟩ : String) = _
      rw [c4]

/-- Witness for C1: on "Phone (752) 693-4642." the backend phone extractor
returns a non-"NA" value, and the theorem's decomposition applies. -/
theorem claim1_phone_bracket_only_order_window_witness :
    backendMain.extract_phone "Phone (752) 693-4642." ≠ "NA" ∧
    (∃ pre s post, ("Phone (752) 693-4642." : String).data = pre ++ s ++ post ∧
      BracketShape s ∧ backendMain.windowHasOrder pre.reverse = false ∧
      backendMain.extract_phone "Phone (752) 693-4642." =
        ⟨(s.filter Char.isDigit).take 3 ++ '-' ::
          ((s.filter Char.isDigit).drop 3).take 3 ++ '-' ::
          ((s.filter Char.isDigit).drop 6)⟩) :=
  ⟨by decide, claim1_phone_bracket_only_order_window "Phone (752) 693-4642." (by decide)⟩

/-- Claim C4 (spec-modelled, `backend/main.py` is not among the checked-in
sources): the backend order-id extractor prefers a numeric token that
follows the phrase "order id"/"order number"/"order #" and accepts it only
with at least six digits; otherwise (only when the explicit stage finds
nothing) it accepts a standalone numeric token only with nine or more digits,
word-bounded and without "phone" in its preceding context window. -/
theorem claim4_order_id_thresholds :
    ∀ t : String, backendMain.extract_order_id t ≠ "NA" →
      (∃ v, backendMain.extract_order_id t = ⟨v⟩ ∧ 6 ≤ v.length ∧ v.all Char.isDigit ∧
        ∃ pre o w k rest2, t.data = pre ++ (o ++ w ++ k) ++ rest2 ∧
          o.map Char.toLower = ['o', 'r', 'd', 'e', 'r'] ∧ w ≠ [] ∧ w.all isWsC ∧
          (k.map Char.toLower = ['i', 'd'] ∨
            k.map Char.toLower = ['n', 'u', 'm', 'b', 'e', 'r'] ∨
            k.map Char.toLower = ['#']) ∧
          ∃ mid tail, rest2.take 100 = mid ++ v ++ tail) ∨
      (scanFirst backendMain.mOrdExplicit [] t.data = none ∧
        ∃ v, backendMain.extract_order_id t = ⟨v⟩ ∧ 9 ≤ v.length ∧ v.all Char.isDigit ∧
          ∃ pre post, t.data = pre ++ v ++ post ∧ bdry pre.reverse ∧ bdry post ∧
            backendMain.windowHasPhone pre.reverse = false) := by
  intro t h
  rw [backendMain.extract_order_id] at h ⊢
  rcases hexp : scanFirst backendMain.mOrdExplicit [] t.data with _ | ⟨v, md, rest⟩
  · rcases hst : scanFirst backendMain.mOrdStandalone [] t.data with _ | ⟨v, md, rest⟩
    · rw [hexp, hst] at h
      exact absurd rfl h
    · right
      obtain ⟨a, b, hab, hm⟩ := scanFirst_some hst
      simp only [List.append_nil] at hm
      obtain ⟨c1, c2, c3, c4, c5, c6, c7⟩ := backendMain.mOrdStandalone_sound hm
      subst c2
      refine ⟨rfl, v, rfl, c5, c6, a.reverse, rest, ?_, by simpa using c3, c4,
        by simpa using c7⟩
      rw [hab, c1]
      simp [List.append_assoc]
  · left
    obtain ⟨a, b, hab, hm⟩ := scanFirst_some hexp
    simp only [List.append_nil] at hm
    obtain ⟨c1, ⟨o, w, k, cmd, co, cw1, cw2, ck⟩, mid, tail, ctk, -, -, clen, cdig⟩ :=
      backendMain.mOrdExplicit_sound hm
    refine ⟨v, rfl, clen, cdig, a.reverse, o, w, k, rest, ?_, co, cw1, cw2, ck,
      mid, tail, ctk⟩
    rw [hab, c1, cmd]
    simp [List.append_assoc]

/-- Witness for C4: on "My order id. It is 1012809669." the backend order-id
extractor returns a non-"NA" value, and the theorem's disjunction applies. -/
theorem claim4_order_id_thresholds_witness :
    backendMain.extract_order_id "My order id. It is 1012809669." ≠ "NA" ∧
    ((∃ v, backendMain.extract_order_id "My order id. It is 1012809669." = ⟨v⟩ ∧
        6 ≤ v.length ∧ v.all Char.isDigit ∧
        ∃ pre o w k rest2,
          ("My order id. It is 1012809669." : String).data = pre ++ (o ++ w ++ k) ++ rest2 ∧
          o.map Char.toLower = ['o', 'r', 'd', 'e', 'r'] ∧ w ≠ [] ∧ w.all isWsC ∧
          (k.map Char.toLower = ['i', 'd'] ∨
            k.map Char.toLower = ['n', 'u', 'm', 'b', 'e', 'r'] ∨
            k.map Char.toLower = ['#']) ∧
          ∃ mid tail, rest2.take 100 = mid ++ v ++ tail) ∨
      (scanFirst backendMain.mOrdExplicit [] ("My order id. It is 1012809669." : String).data =
          none ∧
        ∃ v, backendMain.extract_order_id "My order id. It is 1012809669." = ⟨v⟩ ∧
          9 ≤ v.length ∧ v.all Char.isDigit ∧
          ∃ pre post, ("My order id. It is 1012809669." : String).data = pre ++ v ++ post ∧
            bdry pre.reverse ∧ bdry post ∧
            backendMain.windowHasPhone pre.reverse = false)) :=
  ⟨by decide, claim4_order_id_thresholds "My order id. It is 1012809669." (by decide)⟩

/-- Claim C5 (spec-modelled, `backend/main.py` is not among the checked-in
sources): the backend zip extractor applies its rules in preference order —
first a five-digit token following the explicit keyword "zip" (with optional
"code"/"is"/colon), then, only if the keyword stage finds nothing, a
five-digit token in a trailing-address pattern (uppercase state abbreviation
then whitespace), and only as a last resort an isolated five-digit number
whose context windows contain neither an order keyword nor an opening
paren of a phone pattern. -/
theorem claim5_zip_preference_order :
    ∀ t : String, backendMain.extract_zip_code t ≠ "NA" →
      ∃ v, backendMain.extract_zip_code t = ⟨v⟩ ∧ v.length = 5 ∧ v.all Char.isDigit ∧
      ((∃ pre o mid post, t.data = pre ++ (o ++ mid ++ v) ++ post ∧
          o.map Char.toLower = ['z', 'i', 'p']) ∨
       (scanFirst backendMain.mZipKw [] t.data = none ∧
         ∃ pre st w post, t.data = pre ++ (st ++ w ++ v) ++ post ∧ st.length = 2 ∧
           st.all Char.isUpper ∧ w ≠ [] ∧ w.all isWsC) ∨
       (scanFirst backendMain.mZipKw [] t.data = none ∧
         scanFirst backendMain.mZipAddr [] t.data = none ∧
         ∃ pre post, t.data = pre ++ v ++ post ∧ bdry pre.reverse ∧ bdry post ∧
           backendMain.windowHasOrder pre.reverse = false ∧
           (pre.reverse.take 10).contains '(' = false)) := by
  intro t h
  rw [backendMain.extract_zip_code] at h ⊢
  rcases hkw : scanFirst backendMain.mZipKw [] t.data with _ | ⟨v, md, rest⟩
  · rcases had : scanFirst backendMain.mZipAddr [] t.data with _ | ⟨v, md, rest⟩
    · rcases hst : scanFirst backendMain.mZipStandalone [] t.data with _ | ⟨v, md, rest⟩
      · rw [hkw, had, hst] at h
        exact absurd rfl h
      · obtain ⟨a, b, hab, hm⟩ := scanFirst_some hst
        simp only [List.append_nil] at hm
        obtain ⟨c1, c2, c3, c4, c5, c6, c7, c8⟩ := backendMain.mZipStandalone_sound hm
        subst c2
        refine ⟨v, rfl, c3, c4, Or.inr (Or.inr ⟨rfl, rfl, a.reverse, rest, ?_,
          by simpa using c5, c6, by simpa using c7, by simpa using c8⟩)⟩
        rw [hab, c1]
        simp [List.append_assoc]
    · obtain ⟨a, b, hab, hm⟩ := scanFirst_some had
      simp only [List.append_nil] at hm
      obtain ⟨c1, -, -, st, w, cmd, cst1, cst2, cw1, cw2, clen, cdig⟩ :=
        backendMain.mZipAddr_sound hm
      refine ⟨v, rfl, clen, cdig, Or.inr (Or.inl ⟨rfl, a.reverse, st, w, rest, ?_,
        cst1, cst2, cw1, cw2⟩)⟩
      rw [hab, c1, cmd]
      simp [List.append_assoc]
  · obtain ⟨a, b, hab, hm⟩ := scanFirst_some hkw
    simp only [List.append_nil] at hm
    obtain ⟨c1, -, o, mid, cmd, co, clen, cdig⟩ := backendMain.mZipKw_sound hm
    refine ⟨v, rfl, clen, cdig, Or.inl ⟨a.reverse, o, mid, rest, ?_, co⟩⟩
    rw [hab, c1, cmd]
    simp [List.append_assoc]

/-- Witness for C5: on "Zip code 78202." the backend zip extractor returns a
non-"NA" value, and the theorem's preference disjunction applies. -/
theorem claim5_zip_preference_order_witness :
    backendMain.extract_zip_code "Zip code 78202." ≠ "NA" ∧
    (∃ v, backendMain.extract_zip_code "Zip code 78202." = ⟨v⟩ ∧ v.length = 5 ∧
      v.all Char.isDigit ∧
      ((∃ pre o mid post, ("Zip code 78202." : String).data = pre ++ (o ++ mid ++ v) ++ post ∧
          o.map Char.toLower = ['z', 'i', 'p']) ∨
       (scanFirst backendMain.mZipKw [] ("Zip code 78202." : String).data = none ∧
         ∃ pre st w post, ("Zip code 78202." : String).data = pre ++ (st ++ w ++ v) ++ post ∧
           st.length = 2 ∧ st.all Char.isUpper ∧ w ≠ [] ∧ w.all isWsC) ∨
       (scanFirst backendMain.mZipKw [] ("Zip code 78202." : String).data = none ∧
         scanFirst backendMain.mZipAddr [] ("Zip code 78202." : String).data = none ∧
         ∃ pre post, ("Zip code 78202." : String).data = pre ++ v ++ post ∧
           bdry pre.reverse ∧ bdry post ∧
           backendMain.windowHasOrder pre.reverse = false ∧
           (pre.reverse.take 10).contains '(' = false))) :=
  ⟨by decide, claim5_zip_preference_order "Zip code 78202." (by decide)⟩

/-- Counterexample to claim C6 as stated: the text "Call (123) 456-7890 and
1234567890 now." contains both a bracketed phone token and a standalone
ten-digit numeric token, yet the enhanced extractor (the one used by the
`/api/extract` route) returns orderId "NA" rather than "1234567890": its
standalone order pattern requires uppercase letters and its keyword patterns
find no "order"/"#" context, so the numeric token is not returned. -/
theorem claim6_counterexample :
    ("Call (123) 456-7890 and 1234567890 now." : String).data =
        ("Call " : String).data ++ ("(123) 456-7890" : String).data ++
          (" and " : String).data ++ ("1234567890" : String).data ++
          (" now." : String).data ∧
    (enhancedFieldExtractor.extractAllFields "Call (123) 456-7890 and 1234567890 now.").phone =
      "(123) 456-7890" ∧
    (enhancedFieldExtractor.extractAllFields "Call (123) 456-7890 and 1234567890 now.").orderId =
      "NA" ∧
    ("NA" : String) ≠ "1234567890" := by
  refine ⟨by decide, by decide, by decide, by decide⟩

/-- Claim C6 (amended): for the basic extractor, on any text with no
case-insensitive occurrence of "order" and no hash sign (so that the
keyword order patterns cannot fire), a non-"NA" phone is a bracketed token
occurring in the text and a non-"NA" orderId is a standalone pattern-4 token
of at least eight characters occurring in the text; the two tokens have
distinct first characters, so the fields never exchange values (no
cross-contamination).  The enhanced extractor, by contrast, returns orderId
"NA" on such texts (see the counterexample), and the basic standalone
threshold is eight digits, not nine. -/
theorem claim6_amended_no_cross_contamination :
    ∀ t : String, containsTok ['o', 'r', 'd', 'e', 'r'] t.data = false → '#' ∉ t.data →
      ((fieldExtractor.extractAllFields t).phone = "NA" ∨
        (BracketShape (fieldExtractor.extractAllFields t).phone.data ∧
          ∃ pre post, t.data = pre ++ (fieldExtractor.extractAllFields t).phone.data ++ post)) ∧
      ((fieldExtractor.extractAllFields t).orderId = "NA" ∨
        (Ord4ShapeB (fieldExtractor.extractAllFields t).orderId.data ∧
          8 ≤ (fieldExtractor.extractAllFields t).orderId.data.length ∧
          ∃ pre post, t.data = pre ++ (fieldExtractor.extractAllFields t).orderId.data ++ post)) ∧
      ((fieldExtractor.extractAllFields t).phone ≠ "NA" →
        (fieldExtractor.extractAllFields t).orderId ≠ (fieldExtractor.extractAllFields t).phone) := by
  intro t ho hh
  have hph := fieldExtractor.extractPhoneL_shape t.data
  have hor := fieldExtractor.extractOrderIdL_no_order_hash ho hh
  refine ⟨?_, ?_, ?_⟩
  · rcases hph with h | ⟨hs, hd⟩
    · left
      show (⟨fieldExtractor.extractPhoneL t.data⟩ : String) = "NA"
      rw [h]
      exact mk_NA
    · exact Or.inr ⟨hs, hd⟩
  · rcases hor with h | ⟨hs, hl, hd⟩
    · left
      show (⟨fieldExtractor.extractOrderIdL t.data⟩ : String) = "NA"
      rw [h]
      exact mk_NA
    · exact Or.inr ⟨hs, hl, hd⟩
  · intro hne heq
    rcases hph with h | ⟨hs, -⟩
    · exact hne (by
        show (⟨fieldExtractor.extractPhoneL t.data⟩ : String) = "NA"
        rw [h]
        exact mk_NA)
    · obtain ⟨a, w, b, c, hx, -⟩ := hs
      have hdata : fieldExtractor.extractOrderIdL t.data = fieldExtractor.extractPhoneL t.data :=
        congrArg String.data heq
      rcases hor with h | ⟨hs2, -, -⟩
      · have : (fieldExtractor.extractAllFields t).orderId = "NA" := by
          show (⟨fieldExtractor.extractOrderIdL t.data⟩ : String) = "NA"
          rw [h]
          exact mk_NA
        rw [this] at heq
        exact hne heq.symm
      · obtain ⟨c0, t', hc0, hud⟩ := Ord4ShapeB_head hs2
        rw [hc0, hx] at hdata
        simp only [List.cons_append, List.cons.injEq] at hdata
        rcases hud with hu | hd2
        · rw [hdata.1] at hu
          simp [Char.isUpper] at hu
        · rw [hdata.1] at hd2
          simp [Char.isDigit] at hd2

/-- Witness for the amended C6: on "Call (123) 456-7890 and 123456789." the
hypotheses hold, the basic extractor returns both tokens distinctly, and the
theorem applies. -/
theorem claim6_amended_no_cross_contamination_witness :
    containsTok ['o', 'r', 'd', 'e', 'r']
        ("Call (123) 456-7890 and 123456789." : String).data = false ∧
    '#' ∉ ("Call (123) 456-7890 and 123456789." : String).data ∧
    (((fieldExtractor.extractAllFields "Call (123) 456-7890 and 123456789.").phone = "NA" ∨
        (BracketShape
            (fieldExtractor.extractAllFields "Call (123) 456-7890 and 123456789.").phone.data ∧
          ∃ pre post, ("Call (123) 456-7890 and 123456789." : String).data =
            pre ++ (fieldExtractor.extractAllFields
              "Call (123) 456-7890 and 123456789.").phone.data ++ post)) ∧
      ((fieldExtractor.extractAllFields "Call (123) 456-7890 and 123456789.").orderId = "NA" ∨
        (Ord4ShapeB
            (fieldExtractor.extractAllFields "Call (123) 456-7890 and 123456789.").orderId.data ∧
          8 ≤ (fieldExtractor.extractAllFields
            "Call (123) 456-7890 and 123456789.").orderId.data.length ∧
          ∃ pre post, ("Call (123) 456-7890 and 123456789." : String).data =
            pre ++ (fieldExtractor.extractAllFields
              "Call (123) 456-7890 and 123456789.").orderId.data ++ post)) ∧
      ((fieldExtractor.extractAllFields "Call (123) 456-7890 and 123456789.").phone ≠ "NA" →
        (fieldExtractor.extractAllFields "Call (123) 456-7890 and 123456789.").orderId ≠
          (fieldExtractor.extractAllFields "Call (123) 456-7890 and 123456789.").phone)) :=
  ⟨by decide, by decide,
    claim6_amended_no_cross_contamination "Call (123) 456-7890 and 123456789."
      (by decide) (by decide)⟩
